import Mathlib

/-!
Verification of the Pi-Crop-AI decision pipeline.

This file gives a shallow embedding, in Lean 4, of the core decision pipeline
of the repository (module `crop_agent`): the JSON response extractor
(`Utils.parse_json`), the decision and plan parsers (`Utils.parse_response`,
`Utils.parse_plan`), the safety gate (`SafetyValidator.validate`), the memory
retriever (`DecisionAgent._retrieve_memory` together with
`MetadataStore.get_case`), the prompt builders (`build_prompt`,
`build_plan_prompt`), and the orchestrator (`DecisionAgent.decide`).

Python JSON values are modelled by the inductive type `JVal`; Python dicts by
association lists (`PyDict`) with Python insertion/update semantics; the
external collaborators (LLM backend, embedding index, SQLite case store) are
modelled at their interfaces: the backend as an arbitrary function
`String → String`, the index as the list of neighbour ids it returns, and the
case store as the list of inserted case texts with 1-based auto-increment ids.

Modelling notes, fixed throughout:
* JSON numbers are modelled as arbitrary-precision integers.  Fractional and
  exponent number literals, and the non-standard `NaN`/`Infinity` constants
  accepted by Python, are outside the model (the modelled parser rejects
  them); none of the verified claims involves such literals.
* Strings are Lean `String`s (sequences of Unicode scalar values).  Escaped
  lone UTF-16 surrogates, which Python tolerates, are outside the model.
* Python exceptions are modelled with `Option`/`Except`: a raised exception is
  `none`/`Except.error`, and `try/except` blocks are the corresponding
  `match`es.
-/

namespace CropAgent

/-- A Python/JSON value: null, booleans, (integer) numbers, strings, lists and
string-keyed dicts, as produced by `json.loads` and consumed by the pipeline. -/
inductive JVal where
  | jnull : JVal
  | jbool : Bool → JVal
  | jnum : Int → JVal
  | jstr : String → JVal
  | jarr : List JVal → JVal
  | jobj : List (String × JVal) → JVal

open JVal

/-- A Python dict with string keys, as an association list in insertion order.
Python dict literals and updates preserve the position of an existing key and
append fresh keys at the end; `dictSet` below implements exactly that. -/
abbrev PyDict := List (String × JVal)

/-- Dict lookup (`d.get(k)` / `d[k]` success case): first binding of the key. -/
def plookup : PyDict → String → Option JVal
  | [], _ => none
  | (k, v) :: rest, key => if k = key then some v else plookup rest key

/-- Dict update (`d[k] = v`, and the later entries of a `{**d, k: v}` literal):
replaces the value at an existing key in place, else appends the binding. -/
def dictSet : PyDict → String → JVal → PyDict
  | [], key, v => [(key, v)]
  | (k, w) :: rest, key, v =>
    if k = key then (key, v) :: rest else (k, w) :: dictSet rest key v

/-- Keys of a dict, in order. -/
def dictKeys (d : PyDict) : List String := d.map Prod.fst

/-- JSON whitespace, as skipped by Python's `json` decoder: space, tab,
newline, carriage return. -/
def isJsonWs (c : Char) : Bool :=
  c = ' ' ∨ c = '\t' ∨ c = '\n' ∨ c = Char.ofNat 13

/-- Whitespace of Python's regex `\s` and of `str.strip` (ASCII part): space,
tab, newline, carriage return, vertical tab, form feed.  (The additional
Unicode whitespace recognised by Python does not occur in this pipeline.) -/
def isPySpace (c : Char) : Bool :=
  c = ' ' ∨ c = '\t' ∨ c = '\n' ∨ c = Char.ofNat 13 ∨ c.toNat = 11 ∨ c.toNat = 12

/-- Value of one hex digit (`0-9a-fA-F`), as accepted in a `\uXXXX` escape. -/
def hexDigitVal (c : Char) : Option Nat :=
  if '0' ≤ c ∧ c ≤ '9' then some (c.toNat - 48)
  else if 'a' ≤ c ∧ c ≤ 'f' then some (c.toNat - 87)
  else if 'A' ≤ c ∧ c ≤ 'F' then some (c.toNat - 55)
  else none

/-- Value of a four-hex-digit group of a `\uXXXX` escape. -/
def hex4 (h1 h2 h3 h4 : Char) : Option Nat :=
  match hexDigitVal h1, hexDigitVal h2, hexDigitVal h3, hexDigitVal h4 with
  | some a, some b, some c, some d => some (a * 4096 + b * 256 + c * 16 + d)
  | _, _, _, _ => none

/-- Prepend a char to the string part of a string-parser result. -/
def consStr (c : Char) : Option (List Char × List Char) → Option (List Char × List Char)
  | some (s, rest) => some (c :: s, rest)
  | none => none

/-- Body of a JSON string, after the opening quote: decodes escapes (including
surrogate pairs) up to the closing quote, returning the decoded chars and the
input after the closing quote.  Faithful to Python's strict decoder: literal
control characters (below 0x20) are rejected, unknown escapes are rejected.
Escaped lone surrogates (accepted by Python, not representable as Lean chars)
are out of the model and rejected. -/
def psbEsc (k : List Char → Option (List Char × List Char)) :
    List Char → Option (List Char × List Char)
  | [] => none
  | e :: rest2 =>
    if e = '"' then consStr '"' (k rest2)
    else if e = '\\' then consStr '\\' (k rest2)
    else if e = '/' then consStr '/' (k rest2)
    else if e = 'b' then consStr (Char.ofNat 8) (k rest2)
    else if e = 'f' then consStr (Char.ofNat 12) (k rest2)
    else if e = 'n' then consStr '\n' (k rest2)
    else if e = 'r' then consStr (Char.ofNat 13) (k rest2)
    else if e = 't' then consStr '\t' (k rest2)
    else if e = 'u' then
      match rest2 with
      | h1 :: h2 :: h3 :: h4 :: rest3 =>
        match hex4 h1 h2 h3 h4 with
        | none => none
        | some n =>
          if 0xD800 ≤ n ∧ n < 0xDC00 then
            match rest3 with
            | b1 :: u1 :: g1 :: g2 :: g3 :: g4 :: rest4 =>
              if b1 = '\\' ∧ u1 = 'u' then
                match hex4 g1 g2 g3 g4 with
                | some m =>
                  if 0xDC00 ≤ m ∧ m < 0xE000 then
                    consStr (Char.ofNat (0x10000 + (n - 0xD800) * 0x400 + (m - 0xDC00)))
                      (k rest4)
                  else none
                | none => none
              else none
            | _ => none
          else if 0xDC00 ≤ n ∧ n < 0xE000 then none
          else consStr (Char.ofNat n) (k rest3)
      | _ => none
    else none

def parseStringBodyF : Nat → List Char → Option (List Char × List Char)
  | 0, _ => none
  | _, [] => none
  | f + 1, c :: rest =>
    if c = '"' then some ([], rest)
    else if c = '\\' then psbEsc (parseStringBodyF f) rest
    else if c.toNat < 0x20 then none
    else consStr c (parseStringBodyF f rest)

/-- The string-body parser with ample fuel: each fuel unit covers one decoded
character, and a character consumes at least one input character, so the
input length plus one always suffices. -/
def parseStringBody (cs : List Char) : Option (List Char × List Char) :=
  parseStringBodyF (cs.length + 1) cs

/-- Digit test for decimal digits. -/
def isDigitCh (c : Char) : Bool := '0' ≤ c ∧ c ≤ '9'

/-- Numeric value of a run of decimal digit characters. -/
def digitsToNat (ds : List Char) : Nat :=
  ds.foldl (fun a c => a * 10 + (c.toNat - 48)) 0

/-- Unsigned part of a JSON number, per the grammar `0|[1-9][0-9]*` used by
Python's decoder: a single `0`, or a nonzero digit followed by a maximal digit
run.  A following `.`, `e` or `E` would start a float literal, which is
outside the integer number model, so it is rejected here. -/
def parseNatPart : List Char → Option (Nat × List Char)
  | [] => none
  | c :: rest =>
    if c = '0' then
      match rest with
      | r :: _ => if r = '.' ∨ r = 'e' ∨ r = 'E' then none else some (0, rest)
      | [] => some (0, rest)
    else if isDigitCh c then
      let run := (c :: rest).takeWhile isDigitCh
      let rest2 := (c :: rest).dropWhile isDigitCh
      match rest2 with
      | r :: _ => if r = '.' ∨ r = 'e' ∨ r = 'E' then none else some (digitsToNat run, rest2)
      | [] => some (digitsToNat run, rest2)
    else none

/-- A JSON number with optional leading minus sign. -/
def parseNumber : List Char → Option (Int × List Char)
  | [] => none
  | c :: rest =>
    if c = '-' then
      match parseNatPart rest with
      | some (n, r) => some (-(n : Int), r)
      | none => none
    else
      match parseNatPart (c :: rest) with
      | some (n, r) => some ((n : Int), r)
      | none => none

mutual

/-- One JSON value, with leading JSON whitespace skipped — the recursive core
of Python's `json.loads`.  Fuel-indexed for termination; `jsonLoads` below
supplies ample fuel. -/
def pv : Nat → List Char → Option (JVal × List Char)
  | 0, _ => none
  | f + 1, cs =>
    match cs.dropWhile isJsonWs with
    | [] => none
    | c :: rest =>
      if c = '{' then
        let r2 := rest.dropWhile isJsonWs
        match r2 with
        | '}' :: r3 => some (jobj [], r3)
        | _ => pmembers f r2 []
      else if c = '[' then
        let r2 := rest.dropWhile isJsonWs
        match r2 with
        | ']' :: r3 => some (jarr [], r3)
        | _ => pelems f r2 []
      else if c = '"' then
        match parseStringBody rest with
        | some (s, r) => some (jstr (String.mk s), r)
        | none => none
      else if c = 't' then
        match rest with
        | 'r' :: 'u' :: 'e' :: r => some (jbool true, r)
        | _ => none
      else if c = 'f' then
        match rest with
        | 'a' :: 'l' :: 's' :: 'e' :: r => some (jbool false, r)
        | _ => none
      else if c = 'n' then
        match rest with
        | 'u' :: 'l' :: 'l' :: r => some (jnull, r)
        | _ => none
      else
        match parseNumber (c :: rest) with
        | some (n, r) => some (jnum n, r)
        | none => none

/-- Members of a JSON object after the opening brace (nonempty case): called
at the position of an expected key, accumulating parsed bindings with Python
dict semantics (`dictSet`, duplicate keys last-wins). -/
def pmembers : Nat → List Char → PyDict → Option (JVal × List Char)
  | 0, _, _ => none
  | f + 1, cs, acc =>
    match cs with
    | [] => none
    | c :: r1 =>
      if c = '"' then
        match parseStringBody r1 with
        | none => none
        | some (k, r2) =>
          match r2.dropWhile isJsonWs with
          | [] => none
          | c2 :: r3 =>
            if c2 = ':' then
              match pv f r3 with
              | none => none
              | some (v, r4) =>
                match r4.dropWhile isJsonWs with
                | [] => none
                | c3 :: r5 =>
                  if c3 = ',' then
                    pmembers f (r5.dropWhile isJsonWs) (dictSet acc (String.mk k) v)
                  else if c3 = '}' then
                    some (jobj (dictSet acc (String.mk k) v), r5)
                  else none
            else none
      else none

/-- Elements of a JSON array after the opening bracket (nonempty case). -/
def pelems : Nat → List Char → List JVal → Option (JVal × List Char)
  | 0, _, _ => none
  | f + 1, cs, acc =>
    match pv f cs with
    | none => none
    | some (v, r1) =>
      match r1.dropWhile isJsonWs with
      | [] => none
      | c :: r2 =>
        if c = ',' then pelems f r2 (v :: acc)
        else if c = ']' then some (jarr (v :: acc).reverse, r2)
        else none

end

/-- Python's `json.loads` on a char list: parse one value and require that
only JSON whitespace follows (else Python raises `Extra data`).  The fuel
`2 * length + 4` dominates the parser's fuel use on every parsable input. -/
def jsonLoadsChars (cs : List Char) : Option JVal :=
  match pv (2 * cs.length + 4) cs with
  | some (v, rest) => if rest.dropWhile isJsonWs = [] then some v else none
  | none => none

/-- Lowercase hex digit character for a value below 16. -/
def hexCh (d : Nat) : Char :=
  if d < 10 then Char.ofNat (48 + d) else Char.ofNat (87 + d)

/-- Four lowercase hex digits of a value below 0x10000, as `json.dumps` emits
in a `\uXXXX` escape. -/
def toHex4 (n : Nat) : List Char :=
  [hexCh (n / 4096 % 16), hexCh (n / 256 % 16), hexCh (n / 16 % 16), hexCh (n % 16)]

/-- Serialization of one string character by `json.dumps` with its default
`ensure_ascii=True`: quote, backslash and control characters are escaped
(short escapes for `\b \t \n \f \r`), other printable ASCII is literal, and
everything above 0x7E becomes `\uXXXX` escapes (a surrogate pair beyond the
basic multilingual plane). -/
def escChar (c : Char) : List Char :=
  if c = '"' then ['\\', '"']
  else if c = '\\' then ['\\', '\\']
  else if c.toNat < 0x20 then
    if c.toNat = 8 then ['\\', 'b']
    else if c.toNat = 9 then ['\\', 't']
    else if c.toNat = 10 then ['\\', 'n']
    else if c.toNat = 12 then ['\\', 'f']
    else if c.toNat = 13 then ['\\', 'r']
    else '\\' :: 'u' :: toHex4 c.toNat
  else if c.toNat ≤ 0x7E then [c]
  else if c.toNat < 0x10000 then '\\' :: 'u' :: toHex4 c.toNat
  else
    '\\' :: 'u' :: toHex4 (0xD800 + (c.toNat - 0x10000) / 0x400)
      ++ '\\' :: 'u' :: toHex4 (0xDC00 + (c.toNat - 0x10000) % 0x400)

/-- Serialized JSON string: quote, escaped characters, quote. -/
def serStr (s : String) : List Char :=
  '"' :: (s.data.map escChar).flatten ++ ['"']

/-- Decimal digits of a natural number, most significant first, accumulated
from the right; fuel-indexed for structural recursion (any fuel above the
value itself is enough, since `n / 10 < n` for positive `n`). -/
def natDigitsAux : Nat → Nat → List Char → List Char
  | 0, _, acc => acc
  | fuel + 1, n, acc =>
    if n < 10 then Char.ofNat (48 + n) :: acc
    else natDigitsAux fuel (n / 10) (Char.ofNat (48 + n % 10) :: acc)

/-- Decimal digits of a natural number. -/
def natDigits (n : Nat) : List Char := natDigitsAux (n + 1) n []

/-- Decimal representation of an integer, as `json.dumps` emits it. -/
def serInt (n : Int) : List Char :=
  if n < 0 then '-' :: natDigits n.natAbs else natDigits n.toNat

mutual

/-- Serialization of a JSON value by `json.dumps` with default options
(separators `", "` and `": "`, `ensure_ascii=True`). -/
def jser : JVal → List Char
  | jnull => ['n', 'u', 'l', 'l']
  | jbool true => ['t', 'r', 'u', 'e']
  | jbool false => ['f', 'a', 'l', 's', 'e']
  | jnum n => serInt n
  | jstr s => serStr s
  | jarr l => '[' :: jserElems l ++ [']']
  | jobj l => '{' :: jserMembers l ++ ['}']

/-- Array elements joined by the default item separator `", "`. -/
def jserElems : List JVal → List Char
  | [] => []
  | [v] => jser v
  | v :: w :: rest => jser v ++ ',' :: ' ' :: jserElems (w :: rest)

/-- Object members `"key": value` joined by the default item separator. -/
def jserMembers : List (String × JVal) → List Char
  | [] => []
  | [(k, v)] => serStr k ++ ':' :: ' ' :: jser v
  | (k, v) :: m :: rest => serStr k ++ ':' :: ' ' :: jser v ++ ',' :: ' ' :: jserMembers (m :: rest)

end

/-- Python's `json.dumps` with default options, as a Lean string. -/
def jsonDumps (v : JVal) : String := String.mk (jser v)

mutual

/-- Well-formedness of a value as an output of Python's `json.loads`: every
object has pairwise distinct keys (Python dicts cannot hold duplicates). -/
def WFb : JVal → Bool
  | jnull => true
  | jbool _ => true
  | jnum _ => true
  | jstr _ => true
  | jarr l => WFbList l
  | jobj l => (dictKeys l).Nodup && WFbMembers l

/-- Well-formedness of a list of values. -/
def WFbList : List JVal → Bool
  | [] => true
  | v :: rest => WFb v && WFbList rest

/-- Well-formedness of the values of an object. -/
def WFbMembers : List (String × JVal) → Bool
  | [] => true
  | (_, v) :: rest => WFb v && WFbMembers rest

end

mutual

/-- Fuel sufficient for `pv` on the serialization of a value (established by
the round-trip theorem below). -/
def jweight : JVal → Nat
  | jnull => 1
  | jbool _ => 1
  | jnum _ => 1
  | jstr _ => 1
  | jarr l => 1 + jweightElems l
  | jobj l => 1 + jweightMembers l

/-- Fuel needed by the `pelems` loop. -/
def jweightElems : List JVal → Nat
  | [] => 0
  | v :: rest => 1 + jweight v + jweightElems rest

/-- Fuel needed by the `pmembers` loop. -/
def jweightMembers : List (String × JVal) → Nat
  | [] => 0
  | (_, v) :: rest => 1 + jweight v + jweightMembers rest

end

/-- Lazy scan for the closing half of a markdown code fence: walk the
characters after the captured `{`, and at each `}` test whether what follows
is optional whitespace and then three backticks (the regex tail
`\s*` followed by three backticks).  This reproduces the backtracking order of
the lazy `.*?` in the fence pattern: the first `}` whose tail matches wins. -/
def lazyClose (acc : List Char) : List Char → Option (List Char)
  | [] => none
  | c :: rest =>
    if c = '}' ∧ (rest.dropWhile isPySpace).take 3 = ['`', '`', '`'] then
      some ('{' :: acc.reverse ++ ['}'])
    else lazyClose (c :: acc) rest

/-- Attempt to match the fence regex of `Utils.parse_json` at the current
position.  The pattern is three backticks, an optional `json` tag, optional
whitespace, then the captured group: a `{`, a lazy run of arbitrary
characters (`re.DOTALL`), and a `}`, followed by optional whitespace and
three closing backticks.  Greedy/lazy backtracking collapses to this
deterministic procedure because `{` and the backtick are not whitespace. -/
def fenceFrom (cs : List Char) : Option (List Char) :=
  match cs with
  | '`' :: '`' :: '`' :: r1 =>
    match (if r1.take 4 = ['j', 's', 'o', 'n'] then r1.drop 4 else r1).dropWhile isPySpace with
    | '{' :: rest => lazyClose [] rest
    | _ => none
  | _ => none

/-- Leftmost match of the fence regex (`re.search` semantics): try each start
position from the left; the first position with a match yields its group. -/
def fenceSearch : List Char → Option (List Char)
  | [] => none
  | c :: rest =>
    match fenceFrom (c :: rest) with
    | some g => some g
    | none => fenceSearch rest

/-- Side condition for number round-trips: the tail does not extend the
numeric literal (no digit and no float marker at its head). -/
def numTailOk (l : List Char) : Prop :=
  ∀ c m, l = c :: m → isDigitCh c = false ∧ c ≠ '.' ∧ c ≠ 'e' ∧ c ≠ 'E'

end CropAgent

namespace Utils

open CropAgent CropAgent.JVal

/-- Embedding of `Utils.parse_json` (`src/crop_agent/utils.py`): first try
the markdown code-fence pattern and parse the captured group as JSON;
otherwise slice from the first `{` to the last `}` of the whole string and
parse that.  Python raises (`ValueError`/`JSONDecodeError`) exactly where
this returns `none`: when there is no `{`, and when the chosen substring is
not valid JSON (including the empty slice produced when the last `}` precedes
the first `{`, and the `end == 0` case of a missing `}`). -/
def parse_json (response : String) : Option JVal :=
  match fenceSearch response.data with
  | some g => jsonLoadsChars g
  | none =>
    if response.data.contains '{' then
      jsonLoadsChars (((response.data.dropWhile (fun c => c ≠ '{')).reverse.dropWhile
        (fun c => c ≠ '}')).reverse)
    else none

/-- The fallback decision dict of `Utils.parse_response`. -/
def fallbackDecision : PyDict :=
  [("decision", jstr "NO_TREATMENT"),
   ("reason", jstr "Fallback: invalid or unsafe LLM output.")]

/-- Test performed by `Utils.parse_response`: `parsed.get("decision")` is a
string belonging to `allowed_actions`.  (A missing key gives Python `None`
and a non-string value can never equal one of the allowed strings, so both
fail the `in` test.) -/
def decisionInAllowed (o : Option JVal) (allowed : List String) : Bool :=
  match o with
  | some (jstr s) => allowed.contains s
  | _ => false

/-- Embedding of `Utils.parse_response`: extract JSON, check the decision
against the allowed vocabulary, and return the parsed dict unchanged on
success; on any exception (extraction failure, non-dict result, decision not
in the vocabulary) return the fallback dict. -/
def parse_response (response : String) (allowed_actions : List String) : PyDict :=
  match parse_json response with
  | some (jobj d) =>
    if decisionInAllowed (plookup d "decision") allowed_actions then d
    else fallbackDecision
  | some _ => fallbackDecision
  | none => fallbackDecision

/-- The fallback plan dict of `Utils.parse_plan`. -/
def fallbackPlan : PyDict :=
  [("plan", jarr []),
   ("reason", jstr "Fallback: could not parse plan from LLM output.")]

/-- Embedding of `Utils.parse_plan`: return the extracted JSON object as is
(per-step action validation is intentionally omitted); fall back to an empty
plan with an explanatory reason only if extraction fails.  The
`allowed_plan_actions` argument is passed through for reference and unused,
as in the source. -/
def parse_plan (response : String) (_allowed_plan_actions : List String) : JVal :=
  match parse_json response with
  | some v => v
  | none => jobj fallbackPlan

end Utils

namespace SafetyValidator

open CropAgent CropAgent.JVal

/-- Configuration of the safety gate, read from `agent.yaml` at construction
time: the allowed decision vocabulary and the two safety flags
(`safety_cfg.get(...)` yields a falsy `None` for a missing flag, so flags are
modelled as booleans). -/
structure Config where
  allowed_actions : List String
  block_unknown_actions : Bool
  require_human_confirmation : Bool

/-- Python membership test `decision in allowed_actions` for the value read
from the LLM dict: only an equal string can belong to a list of strings. -/
def inAllowed (v : JVal) (allowed : List String) : Bool :=
  match v with
  | jstr s => allowed.contains s
  | _ => false

/-- Embedding of `SafetyValidator.validate`
(`src/crop_agent/agent/safety_validator.py`): read the decision (defaulting
to `NO_TREATMENT` when absent); if `block_unknown_actions` is set and the
decision is not in the allowed list, return the input dict spread into a
blocked result (`{**llm_decision, ...}` with decision/reason/safe/override
overridden); otherwise spread into a passed result with `safe=True`,
`override=False`, adding `requires_confirmation=True` when configured.
The `case_context` argument is accepted and never read, as in the source. -/
def validate (cfg : Config) (case_context llm_decision : PyDict) : PyDict :=
  if cfg.block_unknown_actions &&
      !(inAllowed ((plookup llm_decision "decision").getD (jstr "NO_TREATMENT"))
        cfg.allowed_actions) then
    dictSet (dictSet (dictSet (dictSet llm_decision "decision"
      (jstr "NO_TREATMENT")) "reason"
      (jstr "Decision not in allowed action list.")) "safe"
      (jbool false)) "override" (jbool true)
  else
    if cfg.require_human_confirmation then
      dictSet (dictSet (dictSet llm_decision "safe" (jbool true)) "override"
        (jbool false)) "requires_confirmation" (jbool true)
    else
      dictSet (dictSet llm_decision "safe" (jbool true)) "override" (jbool false)

end SafetyValidator

namespace MetadataStore

open CropAgent

/-- Embedding of `MetadataStore.get_case`
(`src/crop_agent/memory/metadata_store.py`).  The SQLite `cases` table is
modelled as the list of inserted case texts: `AUTOINCREMENT` assigns ids
1, 2, ... in insertion order (the core never deletes), so the row with id
`case_id` is the element at position `case_id - 1`, and any other id —
including the 0 and negative ids produced by FAISS `-1` padding — selects no
row, returning `None`. -/
def get_case (rows : List String) (case_id : Int) : Option String :=
  if 1 ≤ case_id then rows.get? (case_id - 1).toNat else none

end MetadataStore

namespace CropAgent

/-- Python `str()` of a JSON value, as interpolated by the f-strings of the
prompt builders and the retrieval query: strings verbatim, integers in
decimal, `True`/`False`/`None` for the constants.  Containers never occur in
case-context fields; they are rendered JSON-style here (Python `repr` would
use single quotes), and no verified claim depends on rendered prompt text,
which only feeds the uninterpreted backend. -/
def pyStr (v : JVal) : String :=
  match v with
  | JVal.jstr s => s
  | JVal.jnum n => String.mk (serInt n)
  | JVal.jbool true => "True"
  | JVal.jbool false => "False"
  | JVal.jnull => "None"
  | v => String.mk (jser v)

/-- Python `str.strip()` (ASCII whitespace): drop leading and trailing
whitespace. -/
def pyStrip (s : String) : String :=
  String.mk (((s.data.dropWhile isPySpace).reverse.dropWhile isPySpace).reverse)

/-- Python subscription `d[k]` on a dict: the value, or a `KeyError`. -/
def pyIndex (d : PyDict) (k : String) : Except String JVal :=
  match plookup d k with
  | some v => Except.ok v
  | none => Except.error ("KeyError: " ++ k)

/-- Python `d.get(k, default)` rendered with `pyStr` (prompt interpolation of
an optional field). -/
def pyGetStr (d : PyDict) (k : String) (dflt : String) : String :=
  match plookup d k with
  | some v => pyStr v
  | none => dflt

end CropAgent

namespace PromptLoader

open CropAgent CropAgent.JVal

/-- Embedding of `build_prompt` (`src/crop_agent/llm/prompt_loader.py`): the
decision prompt.  The memory block is the newline-join of the retrieved
cases, falling back (Python `or` on the falsy empty string) to the literal
sentinel when the join is empty; the action block is a bulleted list; the
case fields are interpolated in source order, raising `KeyError` for a
missing `crop`, `disease`, `severity` or `confidence` and substituting
`N/A` for a missing `temperature`/`humidity`.  The surrounding template is
reproduced verbatim and finally stripped. -/
def build_prompt (context : PyDict) (memory : List String)
    (allowed_actions : List String) : Except String String := do
  let memory_block :=
    let joined := String.intercalate ("\n") memory
    if joined = "" then "No similar historical cases." else joined
  let actions_block := String.intercalate ("\n") (allowed_actions.map (fun action => "- " ++ action))
  let crop ← pyIndex context ("crop")
  let disease ← pyIndex context ("disease")
  let severity ← pyIndex context ("severity")
  let confidence ← pyIndex context ("confidence")
  let prompt :=
    "\nYou are an agricultural treatment decision agent.\n\n" ++
    "Your task is to select ONE appropriate treatment action\n" ++
    "based on the current case and past similar cases.\n\n" ++
    "Current Case:\n" ++
    "Crop: " ++ pyStr crop ++ "\n" ++
    "Disease: " ++ pyStr disease ++ "\n" ++
    "Severity: " ++ pyStr severity ++ "\n" ++
    "Confidence: " ++ pyStr confidence ++ "\n" ++
    "Temperature: " ++ pyGetStr context ("temperature") ("N/A") ++ "\n" ++
    "Humidity: " ++ pyGetStr context ("humidity") ("N/A") ++ "\n\n" ++
    "Similar Past Cases:\n" ++ memory_block ++ "\n\n" ++
    "Allowed Actions:\n" ++ actions_block ++ "\n\n" ++
    "IMPORTANT:\n" ++
    "- Choose exactly ONE action from the allowed list.\n" ++
    "- Do NOT invent new actions.\n" ++
    "- Respond ONLY in valid JSON — no extra text, no explanation outside JSON.\n" ++
    "- Always respond in English.\n\n" ++
    "JSON format:\n" ++
    "\x7b\n  \"decision\": \"<ACTION>\",\n  \"reason\": \"<short explanation in English>\"\n\x7d\n"
  pure (pyStrip prompt)

/-- Embedding of `build_plan_prompt` (`src/crop_agent/llm/prompt_loader.py`):
the plan prompt.  Interpolates, in source order, the case `crop`, `disease`
and `severity` (each a `KeyError` when missing), then the approved
`decision["decision"]` — a `KeyError` when the decision dict has no
`decision` key — and `decision.get("reason", "N/A")`; renders the allowed
plan actions as a bulleted list inside the verbatim template, stripped. -/
def build_plan_prompt (case_context : PyDict) (decision : PyDict)
    (allowed_actions : List String) : Except String String := do
  let allowed := String.intercalate ("\n") (allowed_actions.map (fun a => "- " ++ a))
  let crop ← pyIndex case_context ("crop")
  let disease ← pyIndex case_context ("disease")
  let severity ← pyIndex case_context ("severity")
  let dec ← pyIndex decision ("decision")
  let reason := pyGetStr decision ("reason") ("N/A")
  let prompt :=
    "You are an agricultural treatment planner.\n\n" ++
    "Current Case:\n" ++
    "Crop: " ++ pyStr crop ++ "\n" ++
    "Disease: " ++ pyStr disease ++ "\n" ++
    "Severity: " ++ pyStr severity ++ "\n\n" ++
    "Approved Decision: " ++ pyStr dec ++ "\n" ++
    "Reason: " ++ reason ++ "\n\n" ++
    "Create a short, logical step-by-step treatment plan using ONLY the allowed actions below.\n\n" ++
    "Allowed Plan Actions:\n" ++ allowed ++ "\n\n" ++
    "RULES:\n" ++
    "- Use ONLY the actions listed above.\n" ++
    "- Respond ONLY in valid JSON — no extra text before or after.\n" ++
    "- Always respond in English.\n" ++
    "- Keep the plan to 3-5 steps maximum.\n\n" ++
    "Output format:\n" ++
    "\x7b\n  \"plan\": [\n    \x7b\"step\": 1, \"action\": \"<ACTION>\", \"details\": \"<one sentence in English>\"\x7d,\n" ++
    "    \x7b\"step\": 2, \"action\": \"<ACTION>\", \"details\": \"<one sentence in English>\"\x7d\n  ]\n\x7d"
  pure (pyStrip prompt)

end PromptLoader

namespace LLMEngine

open CropAgent CropAgent.JVal

/-- Embedding of `LLMEngine.generate_decision`
(`src/crop_agent/llm/llm_client.py`): build the decision prompt, run it
through the backend (`runner`, the external completion capability
`prompt ↦ raw text`), and either parse/validate the response when
`enforce_json` is set, or return the raw response wrapped in a
single-key dict. -/
def generate_decision (runner : String → String) (enforce_json : Bool)
    (allowed_actions : List String) (case_context : PyDict)
    (similar_cases : List String) : Except String PyDict := do
  let prompt ← PromptLoader.build_prompt case_context similar_cases allowed_actions
  let raw := runner prompt
  if enforce_json then
    pure (Utils.parse_response raw allowed_actions)
  else
    pure [("raw_response", jstr raw)]

/-- Embedding of `LLMEngine.generate_plan`: build the plan prompt, run it,
and parse the plan leniently. -/
def generate_plan (runner : String → String) (case_context : PyDict)
    (decision : PyDict) (allowed_plan_actions : List String) : Except String JVal := do
  let prompt ← PromptLoader.build_plan_prompt case_context decision allowed_plan_actions
  pure (Utils.parse_plan (runner prompt) allowed_plan_actions)

end LLMEngine

namespace TreatmentPlanner

open CropAgent

/-- Embedding of `TreatmentPlanner.build_plan`
(`src/crop_agent/agent/planner.py`): delegate to the engine with the
configured allowed plan actions. -/
def build_plan (runner : String → String) (allowed_plan_actions : List String)
    (case_context : PyDict) (decision : PyDict) : Except String JVal :=
  LLMEngine.generate_plan runner case_context decision allowed_plan_actions

end TreatmentPlanner

namespace DecisionAgent

open CropAgent CropAgent.JVal

/-- The list comprehension of `DecisionAgent._retrieve_memory`
(`src/crop_agent/agent/crop_agent.py`): look every neighbour id up in the
case store at key `idx + 1` (FAISS ids are 0-based, SQLite ids 1-based) and
keep, in rank order, only the hits. -/
def lookupCases (rows : List String) (indices : List Int) : List String :=
  indices.filterMap (fun idx => MetadataStore.get_case rows (idx + 1))

/-- Embedding of `DecisionAgent._retrieve_memory`: build the query text from
the case fields (KeyError on a missing `crop`/`disease`/`severity`; empty
string for missing `temperature`/`humidity`), submit it to the external
vector index (`search`, the capability `query ↦ neighbour ids`), and map the
returned ids to stored case texts. -/
def retrieveMemory (search : String → List Int) (rows : List String)
    (case_context : PyDict) : Except String (List String) := do
  let crop ← pyIndex case_context ("crop")
  let disease ← pyIndex case_context ("disease")
  let severity ← pyIndex case_context ("severity")
  let query_text :=
    pyStr crop ++ " " ++ pyStr disease ++ " " ++ pyStr severity ++ " " ++
    pyGetStr case_context ("temperature") ("") ++ " " ++
    pyGetStr case_context ("humidity") ("")
  pure (lookupCases rows (search query_text))

/-- The plan-attachment step of `DecisionAgent.decide`:
`decision["plan"] = plan_result.get("plan", [])`.  The `.get` call would
raise `AttributeError` on a non-dict plan result; that branch is unreachable
because `Utils.parse_json` only ever yields objects. -/
def attach_plan (decision : PyDict) (plan_result : JVal) : Except String PyDict :=
  match plan_result with
  | jobj d => Except.ok (dictSet decision "plan" ((plookup d "plan").getD (jarr [])))
  | _ => Except.error "AttributeError: get"

/-- Embedding of `DecisionAgent.decide`: retrieve similar cases, generate and
validate a decision, generate a plan for it, and attach the plan to the
decision dict.  External collaborators appear as parameters: `runner` is the
LLM backend, `search` the vector index, `rows` the case store contents;
`enforce_json`, `allowed_actions` and `allowed_plan_actions` come from the
loaded configuration.  An `Except.error` is a Python exception escaping
`decide` (the orchestrator has no try/except of its own). -/
def decide (runner : String → String) (search : String → List Int)
    (rows : List String) (enforce_json : Bool) (allowed_actions : List String)
    (allowed_plan_actions : List String) (case_context : PyDict) :
    Except String PyDict := do
  let similar_cases ← retrieveMemory search rows case_context
  let decision ← LLMEngine.generate_decision runner enforce_json allowed_actions
    case_context similar_cases
  let plan_result ← TreatmentPlanner.build_plan runner allowed_plan_actions
    case_context decision
  attach_plan decision plan_result

end DecisionAgent


/-! ## Association-list lemmas for Python dict semantics -/

namespace CropAgent

open JVal

theorem plookup_dictSet_self (d : PyDict) (k : String) (v : JVal) :
    plookup (dictSet d k v) k = some v := by
  induction d with
  | nil => simp [dictSet, plookup]
  | cons kv rest ih =>
    obtain ⟨k2, v2⟩ := kv
    by_cases h : k2 = k <;> simp [dictSet, plookup, h, ih]

theorem plookup_dictSet_ne (d : PyDict) (k key : String) (v : JVal) (h : k ≠ key) :
    plookup (dictSet d k v) key = plookup d key := by
  induction d with
  | nil => simp [dictSet, plookup, h]
  | cons kv rest ih =>
    obtain ⟨k2, v2⟩ := kv
    by_cases h2 : k2 = k
    · subst h2
      simp [dictSet, plookup, h]
    · simp only [dictSet, if_neg h2]
      by_cases h3 : k2 = key <;> simp [plookup, h3, ih]

theorem dictSet_of_not_mem (d : PyDict) (k : String) (v : JVal)
    (h : k ∉ dictKeys d) : dictSet d k v = d ++ [(k, v)] := by
  induction d with
  | nil => simp [dictSet]
  | cons kv rest ih =>
    obtain ⟨k2, v2⟩ := kv
    simp only [dictKeys, List.map_cons, List.mem_cons] at h
    push_neg at h
    have h2 : k2 ≠ k := fun hh => h.1 hh.symm
    simp [dictSet, h2, ih (by simpa [dictKeys] using h.2)]

theorem dictKeys_dictSet (d : PyDict) (k : String) (v : JVal) (h : k ∈ dictKeys d) :
    dictKeys (dictSet d k v) = dictKeys d := by
  induction d with
  | nil => simp [dictKeys] at h
  | cons kv rest ih =>
    obtain ⟨k2, v2⟩ := kv
    by_cases h2 : k2 = k
    · simp [dictSet, h2, dictKeys]
    · simp only [dictKeys, List.map_cons, List.mem_cons] at h
      rcases h with h | h
      · exact absurd h.symm h2
      · have ihh := ih (by simpa [dictKeys] using h)
        simp only [dictSet, if_neg h2, dictKeys, List.map_cons]
        simpa [dictKeys] using ihh

end CropAgent

/-! ## The safety gate: claims C2, C4, C5, C9 -/

namespace CropAgent

open JVal SafetyValidator

/-- Claim C2, counterexample.  With `block_unknown_actions` enabled and an
out-of-vocabulary decision, the claim says the gate returns exactly
`{decision, reason, safe, override}` with all other input fields discarded.
On the input `{"decision": "POISON", "confidence_note": 1}` the source
spreads `**llm_decision` into the result, so the extra field
`confidence_note` survives in the output — it is merged, not discarded. -/
theorem validate_blocked_preserves_extra_field_cex :
    validate ⟨["FUNGICIDE"], true, false⟩ []
        [("decision", jstr "POISON"), ("confidence_note", jnum 1)]
      = [("decision", jstr "NO_TREATMENT"), ("confidence_note", jnum 1),
         ("reason", jstr "Decision not in allowed action list."),
         ("safe", jbool false), ("override", jbool true)] ∧
    plookup (validate ⟨["FUNGICIDE"], true, false⟩ []
        [("decision", jstr "POISON"), ("confidence_note", jnum 1)]) ("confidence_note")
      = some (jnum 1) := by
  constructor <;> rfl

/-- Claim C2 as amended: when `block_unknown_actions` is enabled and the
decision read from the input (defaulting to `NO_TREATMENT` when absent) is
not in the allowed vocabulary, `validate` returns the input dict merged with
the blocked-result fields: `decision`, `reason`, `safe` and `override` are
overridden to the fixed values, and every other input field is preserved
(merged), not discarded. -/
theorem validate_blocked_merges_input (cfg : Config) (case_context inp : PyDict)
    (hb : cfg.block_unknown_actions = true)
    (hd : inAllowed ((plookup inp "decision").getD (jstr "NO_TREATMENT"))
      cfg.allowed_actions = false) :
    plookup (validate cfg case_context inp) ("decision") = some (jstr "NO_TREATMENT") ∧
    plookup (validate cfg case_context inp) ("reason")
      = some (jstr "Decision not in allowed action list.") ∧
    plookup (validate cfg case_context inp) ("safe") = some (jbool false) ∧
    plookup (validate cfg case_context inp) ("override") = some (jbool true) ∧
    ∀ k, k ≠ "decision" → k ≠ "reason" → k ≠ "safe" → k ≠ "override" →
      plookup (validate cfg case_context inp) k = plookup inp k := by
  unfold validate
  rw [hb, hd]
  simp only [Bool.not_false, Bool.and_self, if_true]
  refine ⟨?_, ?_, ?_, ?_, ?_⟩
  · rw [plookup_dictSet_ne _ _ _ _ (by decide), plookup_dictSet_ne _ _ _ _ (by decide),
      plookup_dictSet_ne _ _ _ _ (by decide), plookup_dictSet_self]
  · rw [plookup_dictSet_ne _ _ _ _ (by decide), plookup_dictSet_ne _ _ _ _ (by decide),
      plookup_dictSet_self]
  · rw [plookup_dictSet_ne _ _ _ _ (by decide), plookup_dictSet_self]
  · rw [plookup_dictSet_self]
  · intro k h1 h2 h3 h4
    rw [plookup_dictSet_ne _ _ _ _ (Ne.symm h4), plookup_dictSet_ne _ _ _ _ (Ne.symm h3),
      plookup_dictSet_ne _ _ _ _ (Ne.symm h2), plookup_dictSet_ne _ _ _ _ (Ne.symm h1)]

/-- Witness for C2 amended, at a concrete blocked input with an extra field. -/
theorem validate_blocked_merges_input_witness :
    (inAllowed ((plookup [("decision", jstr "POISON"), ("confidence_note", jnum 1)]
        "decision").getD (jstr "NO_TREATMENT")) ["FUNGICIDE"] = false) ∧
    plookup (validate ⟨["FUNGICIDE"], true, false⟩ []
      [("decision", jstr "POISON"), ("confidence_note", jnum 1)]) ("decision")
      = some (jstr "NO_TREATMENT") ∧
    plookup (validate ⟨["FUNGICIDE"], true, false⟩ []
      [("decision", jstr "POISON"), ("confidence_note", jnum 1)]) ("confidence_note")
      = plookup [("decision", jstr "POISON"), ("confidence_note", jnum 1)] ("confidence_note") := by
  refine ⟨rfl, ?_, ?_⟩
  · exact (validate_blocked_merges_input ⟨["FUNGICIDE"], true, false⟩ []
      [("decision", jstr "POISON"), ("confidence_note", jnum 1)] rfl rfl).1
  · exact (validate_blocked_merges_input ⟨["FUNGICIDE"], true, false⟩ []
      [("decision", jstr "POISON"), ("confidence_note", jnum 1)] rfl rfl).2.2.2.2
      ("confidence_note") (by decide) (by decide) (by decide) (by decide)

/-- Claim C4: on a raw LLM decision (shape `{decision?, reason?}`, so without
a `requires_confirmation` key) whose decision is in the allowed vocabulary,
the gate passes `decision` and `reason` through verbatim, adds `safe=True`
and `override=False`, and sets `requires_confirmation=True` exactly when
`require_human_confirmation` is configured. -/
theorem validate_allowed_passthrough (cfg : Config) (case_context inp : PyDict)
    (d : String)
    (hdec : plookup inp "decision" = some (jstr d))
    (hall : cfg.allowed_actions.contains d = true)
    (hrc : plookup inp "requires_confirmation" = none) :
    plookup (validate cfg case_context inp) ("decision") = some (jstr d) ∧
    plookup (validate cfg case_context inp) ("reason") = plookup inp ("reason") ∧
    plookup (validate cfg case_context inp) ("safe") = some (jbool true) ∧
    plookup (validate cfg case_context inp) ("override") = some (jbool false) ∧
    plookup (validate cfg case_context inp) ("requires_confirmation")
      = (if cfg.require_human_confirmation then some (jbool true) else none) := by
  unfold validate
  rw [hdec]
  simp only [Option.getD_some, inAllowed, hall, Bool.not_true, Bool.and_false,
    Bool.false_eq_true, if_false]
  by_cases hq : cfg.require_human_confirmation
  · rw [hq]
    simp only [if_true]
    refine ⟨?_, ?_, ?_, ?_, ?_⟩
    · rw [plookup_dictSet_ne _ _ _ _ (by decide), plookup_dictSet_ne _ _ _ _ (by decide),
        plookup_dictSet_ne _ _ _ _ (by decide), hdec]
    · rw [plookup_dictSet_ne _ _ _ _ (by decide), plookup_dictSet_ne _ _ _ _ (by decide),
        plookup_dictSet_ne _ _ _ _ (by decide)]
    · rw [plookup_dictSet_ne _ _ _ _ (by decide), plookup_dictSet_ne _ _ _ _ (by decide),
        plookup_dictSet_self]
    · rw [plookup_dictSet_ne _ _ _ _ (by decide), plookup_dictSet_self]
    · rw [plookup_dictSet_self]
  · rw [Bool.not_eq_true] at hq
    rw [hq]
    simp only [Bool.false_eq_true, if_false]
    refine ⟨?_, ?_, ?_, ?_, ?_⟩
    · rw [plookup_dictSet_ne _ _ _ _ (by decide), plookup_dictSet_ne _ _ _ _ (by decide), hdec]
    · rw [plookup_dictSet_ne _ _ _ _ (by decide), plookup_dictSet_ne _ _ _ _ (by decide)]
    · rw [plookup_dictSet_ne _ _ _ _ (by decide), plookup_dictSet_self]
    · rw [plookup_dictSet_self]
    · rw [plookup_dictSet_ne _ _ _ _ (by decide), plookup_dictSet_ne _ _ _ _ (by decide), hrc]

/-- Witness for C4, at a concrete in-vocabulary decision with the
confirmation flag enabled. -/
theorem validate_allowed_passthrough_witness :
    plookup [("decision", jstr "FUNGICIDE"), ("reason", jstr "ok")] ("decision")
      = some (jstr "FUNGICIDE") ∧
    plookup (validate ⟨["FUNGICIDE"], true, true⟩ []
      [("decision", jstr "FUNGICIDE"), ("reason", jstr "ok")]) ("safe") = some (jbool true) ∧
    plookup (validate ⟨["FUNGICIDE"], true, true⟩ []
      [("decision", jstr "FUNGICIDE"), ("reason", jstr "ok")]) ("requires_confirmation")
      = some (jbool true) := by
  refine ⟨rfl, ?_, ?_⟩
  · exact (validate_allowed_passthrough ⟨["FUNGICIDE"], true, true⟩ []
      [("decision", jstr "FUNGICIDE"), ("reason", jstr "ok")] "FUNGICIDE" rfl rfl rfl).2.2.1
  · exact (validate_allowed_passthrough ⟨["FUNGICIDE"], true, true⟩ []
      [("decision", jstr "FUNGICIDE"), ("reason", jstr "ok")] "FUNGICIDE" rfl rfl rfl).2.2.2.2

/-- Claim C5: the safety-gate invariant.  Whenever the returned dict has
`safe=False`, its decision is the fallback `NO_TREATMENT` and
`override=True` — for every configuration, case context and raw input. -/
theorem validate_safe_false_invariant (cfg : Config) (case_context inp : PyDict)
    (h : plookup (validate cfg case_context inp) ("safe") = some (jbool false)) :
    plookup (validate cfg case_context inp) ("decision") = some (jstr "NO_TREATMENT") ∧
    plookup (validate cfg case_context inp) ("override") = some (jbool true) := by
  unfold validate at h ⊢
  by_cases hc : (cfg.block_unknown_actions &&
      !inAllowed ((plookup inp "decision").getD (jstr "NO_TREATMENT")) cfg.allowed_actions) = true
  · rw [if_pos hc]
    constructor
    · rw [plookup_dictSet_ne _ _ _ _ (by decide), plookup_dictSet_ne _ _ _ _ (by decide),
        plookup_dictSet_ne _ _ _ _ (by decide), plookup_dictSet_self]
    · rw [plookup_dictSet_self]
  · exfalso
    rw [if_neg hc] at h
    by_cases hq : cfg.require_human_confirmation
    · rw [if_pos hq, plookup_dictSet_ne _ _ _ _ (by decide),
        plookup_dictSet_ne _ _ _ _ (by decide), plookup_dictSet_self] at h
      exact absurd (Option.some.inj h) (by simp)
    · rw [if_neg hq, plookup_dictSet_ne _ _ _ _ (by decide), plookup_dictSet_self] at h
      exact absurd (Option.some.inj h) (by simp)

/-- Witness for C5, at a concrete blocked decision. -/
theorem validate_safe_false_invariant_witness :
    plookup (validate ⟨["FUNGICIDE"], true, false⟩ [] [("decision", jstr "POISON")]) ("safe")
      = some (jbool false) ∧
    plookup (validate ⟨["FUNGICIDE"], true, false⟩ [] [("decision", jstr "POISON")]) ("decision")
      = some (jstr "NO_TREATMENT") := by
  refine ⟨rfl, ?_⟩
  exact (validate_safe_false_invariant ⟨["FUNGICIDE"], true, false⟩ []
    [("decision", jstr "POISON")] rfl).1

/-- Claim C9: the gate's output does not depend on the case context.  Two
calls with the same raw decision and any two case contexts — in particular,
contexts differing in severity or confidence — return the identical dict:
`validate` binds its `case_context` argument and never reads it, so every
in-vocabulary action is trusted regardless of severity. -/
theorem validate_ignores_case_context (cfg : Config) (case1 case2 inp : PyDict) :
    validate cfg case1 inp = validate cfg case2 inp := rfl

end CropAgent

/-! ## Memory retrieval: claim C6 -/

namespace CropAgent

open JVal

/-- Claim C6: retrieval properties.  Given the ids returned by the index for
one query (at most `top_k` of them, per the `search(embedding, top_k)`
contract), the retriever (1) returns at most `top_k` texts; (2) its output is
exactly the rank-ordered lookups with the missing ones dropped; (3) each
0-based neighbour id `i` is looked up in the store at the 1-based key
`i + 1`, which holds precisely the i-th inserted text; and (4) ids below 0
(FAISS `-1` padding) look up nothing. -/
theorem retrieval_topk_offset_drop (rows : List String) (indices : List Int)
    (top_k : Nat) (hlen : indices.length ≤ top_k) :
    (DecisionAgent.lookupCases rows indices).length ≤ top_k ∧
    DecisionAgent.lookupCases rows indices
      = (indices.map (fun i => MetadataStore.get_case rows (i + 1))).reduceOption ∧
    (∀ i : Int, 0 ≤ i → MetadataStore.get_case rows (i + 1) = rows.get? i.toNat) ∧
    (∀ i : Int, i < 0 → MetadataStore.get_case rows (i + 1) = none) := by
  refine ⟨?_, ?_, ?_, ?_⟩
  · exact le_trans (List.length_filterMap_le _ _) hlen
  · simp [DecisionAgent.lookupCases, List.reduceOption, List.filterMap_map]
  · intro i hi
    unfold MetadataStore.get_case
    rw [if_pos (by omega)]
    congr 1
    omega
  · intro i hi
    unfold MetadataStore.get_case
    rw [if_neg (by omega)]

/-- Witness for C6, at a concrete store and neighbour list with a duplicate
hit, an out-of-range id and a FAISS `-1` pad. -/
theorem retrieval_topk_offset_drop_witness :
    ([1, 0, 5, -1, 0] : List Int).length ≤ 5 ∧
    DecisionAgent.lookupCases ["case a", "case b"] [1, 0, 5, -1, 0]
      = ["case b", "case a", "case a"] ∧
    MetadataStore.get_case ["case a", "case b"] ((1 : Int) + 1)
      = some "case b" := by
  refine ⟨by decide, rfl, ?_⟩
  rw [(retrieval_topk_offset_drop ["case a", "case b"] [1, 0, 5, -1, 0] 5
    (by decide)).2.2.1 1 (by decide)]
  rfl

end CropAgent

/-! ## Structural lemmas about extraction -/

namespace CropAgent

open JVal

theorem lazyClose_head (cs : List Char) : ∀ acc g, lazyClose acc cs = some g →
    ∃ m, g = '{' :: m := by
  induction cs with
  | nil => intro acc g h; simp [lazyClose] at h
  | cons c rest ih =>
    intro acc g h
    rw [lazyClose] at h
    split at h
    · exact ⟨_, (Option.some.inj h).symm⟩
    · exact ih _ _ h

theorem fenceFrom_head (cs : List Char) (g : List Char) (h : fenceFrom cs = some g) :
    ∃ m, g = '{' :: m := by
  unfold fenceFrom at h
  split at h
  · split at h
    · exact lazyClose_head _ _ _ h
    · exact absurd h (by simp)
  · exact absurd h (by simp)

theorem fenceSearch_head (cs : List Char) : ∀ g, fenceSearch cs = some g →
    ∃ m, g = '{' :: m := by
  induction cs with
  | nil => intro g h; simp [fenceSearch] at h
  | cons c rest ih =>
    intro g h
    rw [fenceSearch] at h
    split at h
    · next heq => exact fenceFrom_head _ _ (h ▸ heq)
    · exact ih _ h

theorem pmembers_isObj (f : Nat) : ∀ cs acc v r, pmembers f cs acc = some (v, r) →
    ∃ d, v = jobj d := by
  induction f with
  | zero => intro cs acc v r h; simp [pmembers] at h
  | succ f ih =>
    intro cs acc v r h
    rcases cs with _ | ⟨c, r1⟩
    · simp [pmembers] at h
    · rw [pmembers] at h
      repeat' split at h
      any_goals exact ih _ _ _ _ h
      any_goals exact ⟨_, ((Prod.mk.inj (Option.some.inj h)).1).symm⟩
      all_goals exact Option.noConfusion h

theorem pv_isObj (f : Nat) (cs : List Char) (v : JVal) (r : List Char)
    (h : pv f cs = some (v, r)) (hh : ∃ m, cs.dropWhile isJsonWs = '{' :: m) :
    ∃ d, v = jobj d := by
  obtain ⟨m, hm⟩ := hh
  cases f with
  | zero => simp [pv] at h
  | succ f =>
    rw [pv, hm] at h
    have h2 : (match List.dropWhile isJsonWs m with
      | '}' :: r3 => some (jobj ([] : PyDict), r3)
      | _ => pmembers f (List.dropWhile isJsonWs m) ([] : PyDict)) = some (v, r) := h
    split at h2
    · exact ⟨[], ((Prod.mk.inj (Option.some.inj h2)).1).symm⟩
    · exact pmembers_isObj _ _ _ _ _ h2

theorem jsonLoadsChars_isObj (m : List Char) (v : JVal)
    (h : jsonLoadsChars ('{' :: m) = some v) : ∃ d, v = jobj d := by
  unfold jsonLoadsChars at h
  split at h
  · next p r heq =>
    split at h
    · obtain ⟨d, hd⟩ := pv_isObj _ _ _ _ heq ⟨m, by simp [List.dropWhile, isJsonWs]⟩
      exact ⟨d, (Option.some.inj h) ▸ hd⟩
    · exact absurd h (by simp)
  · exact absurd h (by simp)

theorem jsonLoadsChars_nil : jsonLoadsChars [] = none := by
  simp [jsonLoadsChars, pv, List.dropWhile]

theorem dropWhile_head_or_nil (p : Char → Bool) (l : List Char) :
    l.dropWhile p = [] ∨ ∃ c m, l.dropWhile p = c :: m ∧ p c = false := by
  induction l with
  | nil => simp
  | cons c rest ih =>
    by_cases h : p c
    · simpa [List.dropWhile, h] using ih
    · exact Or.inr ⟨c, rest, by simp [List.dropWhile, h], by simpa using h⟩

theorem reverse_dropWhile_reverse_eq_append (p : Char → Bool) (l : List Char) :
    ∃ t, l = (l.reverse.dropWhile p).reverse ++ t := by
  refine ⟨(l.reverse.takeWhile p).reverse, ?_⟩
  conv_lhs => rw [← l.reverse_reverse, ← List.takeWhile_append_dropWhile (p := p) (l := l.reverse)]
  rw [List.reverse_append]

/-- Whenever `Utils.parse_json` succeeds, its value is a JSON object: both
the fence group and the brace slice begin with an opening brace. -/
theorem parse_json_isObj (raw : String) (v : JVal) (h : Utils.parse_json raw = some v) :
    ∃ d, v = jobj d := by
  unfold Utils.parse_json at h
  split at h
  · next g heq =>
    obtain ⟨m, hm⟩ := fenceSearch_head _ _ heq
    exact jsonLoadsChars_isObj m v (hm ▸ h)
  · split at h
    · rcases dropWhile_head_or_nil (fun c => c ≠ '{') raw.data with hnil | ⟨c, m, hcm, hc⟩
      · rw [hnil] at h
        simp only [List.reverse_nil, List.dropWhile_nil] at h
        exact absurd h (by simp [jsonLoadsChars_nil])
      · have hc : c = '{' := by simpa using hc
        subst hc
        rw [hcm] at h
        obtain ⟨t, ht⟩ := reverse_dropWhile_reverse_eq_append (fun c => c ≠ '}') ('{' :: m)
        set u := (('{' :: m).reverse.dropWhile (fun c => c ≠ '}')).reverse with hu
        cases hcu : u with
        | nil =>
          rw [hcu] at h
          exact absurd h (by simp [jsonLoadsChars_nil])
        | cons c2 u2 =>
          have hhead : c2 = '{' := by
            rw [hcu] at ht
            exact (List.cons.inj ht).1.symm
          subst hhead
          rw [hcu] at h
          exact jsonLoadsChars_isObj u2 v h
    · exact absurd h (by simp)

/-- The result of `Utils.parse_plan` is always a JSON object (either the
extracted one or the fallback), so the `.get` in the orchestrator's
plan-attachment never raises. -/
theorem parse_plan_isObj (raw : String) (acts : List String) :
    ∃ d, Utils.parse_plan raw acts = jobj d := by
  unfold Utils.parse_plan
  split
  · next v heq =>
    obtain ⟨d, hd⟩ := parse_json_isObj raw v heq
    exact ⟨d, by rw [hd]⟩
  · exact ⟨Utils.fallbackPlan, rfl⟩

/-- The dict returned by `Utils.parse_response` always carries a string
`decision`: the fallback does, and a passed-through parse must have passed
the vocabulary test. -/
theorem parse_response_hasDecision (raw : String) (allowed : List String) :
    ∃ s : String, plookup (Utils.parse_response raw allowed) ("decision") = some (jstr s) := by
  unfold Utils.parse_response
  split
  · next d heq =>
    split
    · next hin =>
      unfold Utils.decisionInAllowed at hin
      split at hin
      · next s hs => exact ⟨s, hs⟩
      · exact absurd hin (by simp)
    · exact ⟨"NO_TREATMENT", rfl⟩
  · exact ⟨"NO_TREATMENT", rfl⟩
  · exact ⟨"NO_TREATMENT", rfl⟩

end CropAgent

/-! ## Decision and plan parsing: claims C3 and C7 -/

namespace CropAgent

open JVal

/-- Claim C3: whenever extraction fails (no brace pair, invalid JSON) or the
parsed decision is not an allowed string, `Utils.parse_response` returns the
fallback decision dict — and, being a total function, it lets no exception
reach the decision stage's caller. -/
theorem parse_response_fallback_on_invalid (raw : String) (allowed : List String)
    (h : ∀ d, Utils.parse_json raw = some (jobj d) →
      Utils.decisionInAllowed (plookup d "decision") allowed = false) :
    Utils.parse_response raw allowed
      = [("decision", jstr "NO_TREATMENT"),
         ("reason", jstr "Fallback: invalid or unsafe LLM output.")] := by
  unfold Utils.parse_response
  split
  · next d heq =>
    rw [h d heq]
    rfl
  · rfl
  · rfl

/-- Witness for C3, at a raw response without any brace pair. -/
theorem parse_response_fallback_on_invalid_witness :
    Utils.parse_json ("server said nothing useful") = none ∧
    Utils.parse_response ("server said nothing useful") (["FUNGICIDE"])
      = [("decision", jstr "NO_TREATMENT"),
         ("reason", jstr "Fallback: invalid or unsafe LLM output.")] := by
  refine ⟨by rfl, ?_⟩
  exact parse_response_fallback_on_invalid ("server said nothing useful") (["FUNGICIDE"])
    (fun d hd => by
      rw [show Utils.parse_json ("server said nothing useful") = none from by rfl] at hd
      exact Option.noConfusion hd)

/-- Claim C7: plan-stage failures degrade to an empty plan.  If the raw plan
response yields no JSON object, or yields an object without a `plan` key,
then the orchestrator's plan attachment succeeds (no exception reaches the
plan stage's caller) and stores the empty list under `plan`, leaving the
decision fields untouched (no second decision fallback); and in the
extraction-failure case `Utils.parse_plan` itself returns the explanatory
fallback `{plan: [], reason: ...}`, which carries no `decision` key. -/
theorem plan_failure_empty_plan (raw : String) (acts : List String) (decision : PyDict)
    (h : ∀ d, Utils.parse_json raw = some (jobj d) → plookup d "plan" = none) :
    (∃ out, DecisionAgent.attach_plan decision (Utils.parse_plan raw acts) = Except.ok out ∧
      plookup out ("plan") = some (jarr []) ∧
      plookup out ("decision") = plookup decision ("decision")) ∧
    (Utils.parse_json raw = none →
      Utils.parse_plan raw acts
        = jobj [("plan", jarr []),
            ("reason", jstr "Fallback: could not parse plan from LLM output.")] ∧
      plookup [("plan", jarr []),
        ("reason", jstr "Fallback: could not parse plan from LLM output.")] ("decision")
        = none) := by
  constructor
  · cases hp : Utils.parse_json raw with
    | none =>
      refine ⟨dictSet decision "plan" (jarr []), ?_, ?_, ?_⟩
      · unfold Utils.parse_plan
        rw [hp]
        rfl
      · rw [plookup_dictSet_self]
      · rw [plookup_dictSet_ne _ _ _ _ (by decide)]
    | some v =>
      obtain ⟨d, rfl⟩ := parse_json_isObj _ _ hp
      have hpp : Utils.parse_plan raw acts = jobj d := by
        unfold Utils.parse_plan
        rw [hp]
      refine ⟨dictSet decision "plan" (jarr []), ?_, ?_, ?_⟩
      · rw [hpp]
        rw [show DecisionAgent.attach_plan decision (jobj d)
          = Except.ok (dictSet decision "plan" ((plookup d "plan").getD (jarr []))) from rfl]
        rw [h d hp]
        rfl
      · rw [plookup_dictSet_self]
      · rw [plookup_dictSet_ne _ _ _ _ (by decide)]
  · intro hp
    unfold Utils.parse_plan
    rw [hp]
    exact ⟨rfl, rfl⟩

/-- Witness for C7, at an unparsable raw plan response. -/
theorem plan_failure_empty_plan_witness :
    ∃ out, DecisionAgent.attach_plan [("decision", jstr "FUNGICIDE")]
        (Utils.parse_plan ("no plan here") ([])) = Except.ok out ∧
      plookup out ("plan") = some (jarr []) ∧
      plookup out ("decision") = plookup [("decision", jstr "FUNGICIDE")] ("decision") :=
  (plan_failure_empty_plan ("no plan here") ([]) [("decision", jstr "FUNGICIDE")]
    (fun d hd => by
      rw [show Utils.parse_json ("no plan here") = none from by rfl] at hd
      exact Option.noConfusion hd)).1

end CropAgent

/-! ## The orchestrator pipeline: claims C1 and C10 -/

namespace CropAgent

open JVal

theorem ok_bind {ε α β : Type} (a : α) (f : α → Except ε β) :
    ((Except.ok a : Except ε α) >>= f) = f a := rfl

theorem error_bind {ε α β : Type} (e : ε) (f : α → Except ε β) :
    ((Except.error e : Except ε α) >>= f) = Except.error e := rfl

theorem pure_eq_ok {ε α : Type} (a : α) : (pure a : Except ε α) = Except.ok a := rfl

theorem pyIndex_some (d : PyDict) (k : String) (v : JVal) (h : plookup d k = some v) :
    pyIndex d k = Except.ok v := by
  unfold pyIndex
  rw [h]

theorem pyIndex_raw_response (s : String) :
    pyIndex [("raw_response", jstr s)] ("decision")
      = Except.error ("KeyError: decision") := rfl

/-- Claim C1, counterexample.  The claim says `decide` always yields a result
with `decision`, `reason`, `safe`, `override` (and optionally
`requires_confirmation`) and `plan`.  On a backend whose output is not JSON,
`decide` returns the fallback decision with an attached empty plan — and no
`safe`, `override` or `requires_confirmation` field at all: the orchestrator
never invokes the safety gate, so no run of `decide` adds safety metadata. -/
theorem decide_result_omits_safety_fields_cex :
    DecisionAgent.decide (fun _ => "no valid json here") (fun _ => []) ([]) true
        (["FUNGICIDE"]) ([])
        [("crop", jstr "Tomato"), ("disease", jstr "Leaf Blight"),
         ("severity", jstr "medium"), ("confidence", jnum 1)]
      = Except.ok [("decision", jstr "NO_TREATMENT"),
          ("reason", jstr "Fallback: invalid or unsafe LLM output."),
          ("plan", jarr [])] ∧
    plookup [("decision", jstr "NO_TREATMENT"),
        ("reason", jstr "Fallback: invalid or unsafe LLM output."),
        ("plan", jarr [])] ("safe") = none ∧
    plookup [("decision", jstr "NO_TREATMENT"),
        ("reason", jstr "Fallback: invalid or unsafe LLM output."),
        ("plan", jarr [])] ("override") = none := by
  refine ⟨by rfl, rfl, rfl⟩

/-- Claim C1 as amended: with `enforce_json` enabled (its configured default)
and a case context carrying the `crop`, `disease`, `severity` and
`confidence` fields the prompts interpolate, `decide` terminates normally
(the `DONE` state) for every backend, index and store, and its result is
exactly the vocabulary-checked extraction of the backend's decision text
(`Utils.parse_response`) with a single `plan` field attached: it always holds
a string `decision` and a `plan`, and every other field of the result is
passed through verbatim from the extracted decision dict.  In particular the
orchestrator itself writes no `safe`, `override` or `requires_confirmation`
field — it never calls the safety gate (see the counterexample for a run
without them) — though such keys pass through when the backend's own JSON
carries them. -/
theorem decide_done_result_fields
    (runner : String → String) (search : String → List Int) (rows : List String)
    (allowed_actions allowed_plan_actions : List String) (case_context : PyDict)
    (c1 : JVal) (hcrop : plookup case_context "crop" = some c1)
    (c2 : JVal) (hdis : plookup case_context "disease" = some c2)
    (c3 : JVal) (hsev : plookup case_context "severity" = some c3)
    (c4 : JVal) (hconf : plookup case_context "confidence" = some c4) :
    ∃ raw planv,
      DecisionAgent.decide runner search rows true allowed_actions
          allowed_plan_actions case_context
        = Except.ok (dictSet (Utils.parse_response raw allowed_actions) "plan" planv) ∧
      (∃ s : String,
        plookup (dictSet (Utils.parse_response raw allowed_actions) "plan" planv)
          ("decision") = some (jstr s)) ∧
      plookup (dictSet (Utils.parse_response raw allowed_actions) "plan" planv)
        ("plan") = some planv ∧
      (∀ key, key ≠ "plan" →
        plookup (dictSet (Utils.parse_response raw allowed_actions) "plan" planv) key
          = plookup (Utils.parse_response raw allowed_actions) key) := by
  obtain ⟨sim, hsim⟩ : ∃ sim, DecisionAgent.retrieveMemory search rows case_context
      = Except.ok sim := by
    unfold DecisionAgent.retrieveMemory
    rw [pyIndex_some _ _ _ hcrop, pyIndex_some _ _ _ hdis, pyIndex_some _ _ _ hsev]
    exact ⟨_, rfl⟩
  obtain ⟨p, hp⟩ : ∃ p, PromptLoader.build_prompt case_context sim allowed_actions
      = Except.ok p := by
    unfold PromptLoader.build_prompt
    rw [pyIndex_some _ _ _ hcrop, pyIndex_some _ _ _ hdis, pyIndex_some _ _ _ hsev,
      pyIndex_some _ _ _ hconf]
    exact ⟨_, rfl⟩
  have hgd : LLMEngine.generate_decision runner true allowed_actions case_context sim
      = Except.ok (Utils.parse_response (runner p) allowed_actions) := by
    unfold LLMEngine.generate_decision
    rw [hp]
    rfl
  obtain ⟨s, hs⟩ := parse_response_hasDecision (runner p) allowed_actions
  obtain ⟨q, hq⟩ : ∃ q, PromptLoader.build_plan_prompt case_context
      (Utils.parse_response (runner p) allowed_actions) allowed_plan_actions
      = Except.ok q := by
    unfold PromptLoader.build_plan_prompt
    rw [pyIndex_some _ _ _ hcrop, pyIndex_some _ _ _ hdis, pyIndex_some _ _ _ hsev,
      pyIndex_some _ _ _ hs]
    exact ⟨_, rfl⟩
  have hbp : TreatmentPlanner.build_plan runner allowed_plan_actions case_context
      (Utils.parse_response (runner p) allowed_actions)
      = Except.ok (Utils.parse_plan (runner q) allowed_plan_actions) := by
    unfold TreatmentPlanner.build_plan LLMEngine.generate_plan
    rw [hq]
    rfl
  obtain ⟨pd, hpd⟩ := parse_plan_isObj (runner q) allowed_plan_actions
  refine ⟨runner p, (plookup pd "plan").getD (jarr []), ?_, ?_, ?_, ?_⟩
  · unfold DecisionAgent.decide
    rw [hsim, ok_bind, hgd, ok_bind, hbp, ok_bind, hpd]
    rfl
  · refine ⟨s, ?_⟩
    rw [plookup_dictSet_ne _ _ _ _ (by decide), hs]
  · exact plookup_dictSet_self _ _ _
  · intro key hk
    exact plookup_dictSet_ne _ _ _ _ (fun he => hk he.symm)

/-- Witness for C1 amended, at a concrete backend, store and case. -/
theorem decide_done_result_fields_witness :
    plookup [("crop", jstr "Tomato"), ("disease", jstr "Leaf Blight"),
        ("severity", jstr "medium"), ("confidence", jnum 1)] ("crop")
      = some (jstr "Tomato") ∧
    ∃ raw planv,
      DecisionAgent.decide (fun _ => "no valid json here") (fun _ => []) ([]) true
          (["FUNGICIDE"]) ([])
          [("crop", jstr "Tomato"), ("disease", jstr "Leaf Blight"),
           ("severity", jstr "medium"), ("confidence", jnum 1)]
        = Except.ok (dictSet (Utils.parse_response raw (["FUNGICIDE"])) "plan" planv) ∧
      (∃ s : String,
        plookup (dictSet (Utils.parse_response raw (["FUNGICIDE"])) "plan" planv)
          ("decision") = some (jstr s)) ∧
      plookup (dictSet (Utils.parse_response raw (["FUNGICIDE"])) "plan" planv)
        ("plan") = some planv ∧
      (∀ key, key ≠ "plan" →
        plookup (dictSet (Utils.parse_response raw (["FUNGICIDE"])) "plan" planv) key
          = plookup (Utils.parse_response raw (["FUNGICIDE"])) key) := by
  refine ⟨rfl, ?_⟩
  exact decide_done_result_fields (fun _ => "no valid json here") (fun _ => []) ([])
    (["FUNGICIDE"]) ([])
    [("crop", jstr "Tomato"), ("disease", jstr "Leaf Blight"),
     ("severity", jstr "medium"), ("confidence", jnum 1)]
    (jstr "Tomato") rfl (jstr "Leaf Blight") rfl (jstr "medium") rfl (jnum 1) rfl

/-- Claim C10: when `llm.enforce_json` is disabled, `generate_decision`
returns only `{"raw_response": raw}`, and the plan prompt's subscription
`decision["decision"]` raises a `KeyError` that escapes `decide` — instead of
`decide` returning a result object. -/
theorem decide_enforce_json_disabled_keyerror
    (runner : String → String) (search : String → List Int) (rows : List String)
    (allowed_actions allowed_plan_actions : List String) (case_context : PyDict)
    (c1 : JVal) (hcrop : plookup case_context "crop" = some c1)
    (c2 : JVal) (hdis : plookup case_context "disease" = some c2)
    (c3 : JVal) (hsev : plookup case_context "severity" = some c3)
    (c4 : JVal) (hconf : plookup case_context "confidence" = some c4) :
    DecisionAgent.decide runner search rows false allowed_actions allowed_plan_actions
      case_context = Except.error ("KeyError: decision") := by
  unfold DecisionAgent.decide DecisionAgent.retrieveMemory LLMEngine.generate_decision
    TreatmentPlanner.build_plan LLMEngine.generate_plan PromptLoader.build_prompt
    PromptLoader.build_plan_prompt
  rw [pyIndex_some _ _ _ hcrop, pyIndex_some _ _ _ hdis, pyIndex_some _ _ _ hsev,
    pyIndex_some _ _ _ hconf]
  simp only [ok_bind, pure_eq_ok, Bool.false_eq_true, if_false, pyIndex_raw_response,
    error_bind]

/-- Witness for C10, at a concrete backend and case. -/
theorem decide_enforce_json_disabled_keyerror_witness :
    plookup [("crop", jstr "Tomato"), ("disease", jstr "Leaf Blight"),
        ("severity", jstr "medium"), ("confidence", jnum 1)] ("crop")
      = some (jstr "Tomato") ∧
    DecisionAgent.decide (fun _ => "free-form model text") (fun _ => []) ([]) false
        (["FUNGICIDE"]) ([])
        [("crop", jstr "Tomato"), ("disease", jstr "Leaf Blight"),
         ("severity", jstr "medium"), ("confidence", jnum 1)]
      = Except.error ("KeyError: decision") := by
  refine ⟨rfl, ?_⟩
  exact decide_enforce_json_disabled_keyerror (fun _ => "free-form model text")
    (fun _ => []) ([]) (["FUNGICIDE"]) ([])
    [("crop", jstr "Tomato"), ("disease", jstr "Leaf Blight"),
     ("severity", jstr "medium"), ("confidence", jnum 1)]
    (jstr "Tomato") rfl (jstr "Leaf Blight") rfl (jstr "medium") rfl (jnum 1) rfl

end CropAgent

/-! ## Round-trip of the JSON serializer and parser (for claim C8) -/

namespace CropAgent

open JVal

theorem char_toNat_lt (c : Char) : c.toNat < 0x110000 := by
  have hv := c.valid
  have he : c.toNat = c.val.toNat := rfl
  rcases hv with h | h <;> omega

theorem char_toNat_not_surrogate (c : Char) :
    c.toNat < 0xD800 ∨ 0xDFFF < c.toNat := by
  have hv := c.valid
  have he : c.toNat = c.val.toNat := rfl
  rcases hv with h | h
  · exact Or.inl (by omega)
  · exact Or.inr (by omega)

theorem char_toNat_inj (c d : Char) (h : c.toNat = d.toNat) : c = d := by
  apply Char.ext
  have h2 : c.val.toNat = d.val.toNat := h
  exact UInt32.toNat.inj h2

theorem hexDigitVal_hexCh : ∀ d, d < 16 → hexDigitVal (hexCh d) = some d := by decide

theorem hex4_toHex4 (n : Nat) (h : n < 65536) :
    (match toHex4 n with
     | [h1, h2, h3, h4] => hex4 h1 h2 h3 h4
     | _ => none) = some n := by
  unfold toHex4
  rw [show (match [hexCh (n / 4096 % 16), hexCh (n / 256 % 16), hexCh (n / 16 % 16),
      hexCh (n % 16)] with
     | [h1, h2, h3, h4] => hex4 h1 h2 h3 h4
     | _ => none)
    = hex4 (hexCh (n / 4096 % 16)) (hexCh (n / 256 % 16)) (hexCh (n / 16 % 16))
        (hexCh (n % 16)) from rfl]
  unfold hex4
  rw [hexDigitVal_hexCh _ (by omega), hexDigitVal_hexCh _ (by omega),
    hexDigitVal_hexCh _ (by omega), hexDigitVal_hexCh _ (by omega)]
  rw [show (match some (n / 4096 % 16), some (n / 256 % 16), some (n / 16 % 16),
      some (n % 16) with
    | some a, some b, some c, some d => some (a * 4096 + b * 256 + c * 16 + d)
    | _, _, _, _ => (none : Option Nat))
    = some (n / 4096 % 16 * 4096 + n / 256 % 16 * 256 + n / 16 % 16 * 16 + n % 16) from rfl]
  congr 1
  omega

end CropAgent

namespace CropAgent
open JVal

theorem hexCh_lt (n : Nat) (h : n < 65536) :
    hex4 (hexCh (n / 4096 % 16)) (hexCh (n / 256 % 16)) (hexCh (n / 16 % 16)) (hexCh (n % 16))
      = some n := by
  unfold hex4
  rw [hexDigitVal_hexCh _ (by omega), hexDigitVal_hexCh _ (by omega),
    hexDigitVal_hexCh _ (by omega), hexDigitVal_hexCh _ (by omega)]
  show some _ = some n
  congr 1
  have h4 : n / 16 / 16 = n / 256 := by rw [Nat.div_div_eq_div_mul]
  have h5 : n / 256 / 16 = n / 4096 := by rw [Nat.div_div_eq_div_mul]
  omega

theorem psbF_succ_cons (f : Nat) (c : Char) (l : List Char) :
    parseStringBodyF (f + 1) (c :: l)
      = (if c = '"' then some ([], l)
         else if c = '\\' then psbEsc (parseStringBodyF f) l
         else if c.toNat < 0x20 then none
         else consStr c (parseStringBodyF f l)) := rfl

theorem psbF_backslash (f : Nat) (rest : List Char) :
    parseStringBodyF (f + 1) ('\\' :: rest) = psbEsc (parseStringBodyF f) rest := rfl

theorem psbEsc_u_step (k : List Char → Option (List Char × List Char))
    (x1 x2 x3 x4 : Char) (r3 : List Char) :
    psbEsc k ('u' :: x1 :: x2 :: x3 :: x4 :: r3)
      = (match hex4 x1 x2 x3 x4 with
         | none => none
         | some n =>
           if 0xD800 ≤ n ∧ n < 0xDC00 then
             match r3 with
             | b1 :: u1 :: g1 :: g2 :: g3 :: g4 :: rest4 =>
               if b1 = '\\' ∧ u1 = 'u' then
                 match hex4 g1 g2 g3 g4 with
                 | some m =>
                   if 0xDC00 ≤ m ∧ m < 0xE000 then
                     consStr (Char.ofNat (0x10000 + (n - 0xD800) * 0x400 + (m - 0xDC00)))
                       (k rest4)
                   else none
                 | none => none
               else none
             | _ => none
           else if 0xDC00 ≤ n ∧ n < 0xE000 then none
           else consStr (Char.ofNat n) (k r3)) := rfl

theorem psbEsc_u_single (k : List Char → Option (List Char × List Char))
    (x1 x2 x3 x4 : Char) (n : Nat) (l : List Char)
    (hh : hex4 x1 x2 x3 x4 = some n)
    (hn : n < 0xD800 ∨ (0xDFFF < n ∧ n < 0x10000)) :
    psbEsc k ('u' :: x1 :: x2 :: x3 :: x4 :: l) = consStr (Char.ofNat n) (k l) := by
  rw [psbEsc_u_step, hh]
  simp only []
  rw [if_neg (by omega), if_neg (by omega)]

theorem psbEsc_u_pair (k : List Char → Option (List Char × List Char))
    (x1 x2 x3 x4 y1 y2 y3 y4 : Char) (n m : Nat) (l : List Char)
    (hx : hex4 x1 x2 x3 x4 = some n) (hy : hex4 y1 y2 y3 y4 = some m)
    (hn : 0xD800 ≤ n ∧ n < 0xDC00) (hm : 0xDC00 ≤ m ∧ m < 0xE000) :
    psbEsc k ('u' :: x1 :: x2 :: x3 :: x4 :: '\\' :: 'u' :: y1 :: y2 :: y3 :: y4 :: l)
      = consStr (Char.ofNat (0x10000 + (n - 0xD800) * 0x400 + (m - 0xDC00))) (k l) := by
  rw [psbEsc_u_step, hx]
  simp only []
  rw [if_pos hn]
  try simp only []
  rw [if_pos (⟨trivial, trivial⟩ : True ∧ True), hy]
  try simp only []
  rw [if_pos hm]

set_option maxRecDepth 16384 in
theorem psbF_esc (c : Char) (f : Nat) (l : List Char) :
    parseStringBodyF (f + 1) (escChar c ++ l) = consStr c (parseStringBodyF f l) := by
  by_cases h1 : c = '"'
  · subst h1; rfl
  by_cases h2 : c = '\\'
  · subst h2; rfl
  by_cases h3 : c.toNat < 0x20
  · by_cases hb8 : c.toNat = 8
    · rw [char_toNat_inj c (Char.ofNat 8) (by rw [hb8]; rfl)]; rfl
    by_cases hb9 : c.toNat = 9
    · rw [char_toNat_inj c (Char.ofNat 9) (by rw [hb9]; rfl)]; rfl
    by_cases hb10 : c.toNat = 10
    · rw [char_toNat_inj c (Char.ofNat 10) (by rw [hb10]; rfl)]; rfl
    by_cases hb12 : c.toNat = 12
    · rw [char_toNat_inj c (Char.ofNat 12) (by rw [hb12]; rfl)]; rfl
    by_cases hb13 : c.toNat = 13
    · rw [char_toNat_inj c (Char.ofNat 13) (by rw [hb13]; rfl)]; rfl
    · have hesc2 : escChar c ++ l = '\\' :: 'u' :: hexCh (c.toNat / 4096 % 16)
          :: hexCh (c.toNat / 256 % 16) :: hexCh (c.toNat / 16 % 16)
          :: hexCh (c.toNat % 16) :: l := by
        unfold escChar
        rw [if_neg h1, if_neg h2, if_pos h3, if_neg hb8, if_neg hb9, if_neg hb10,
          if_neg hb12, if_neg hb13]
        rfl
      rw [hesc2, psbF_backslash]
      rw [psbEsc_u_single _ _ _ _ _ c.toNat l (hexCh_lt c.toNat (by omega))
        (Or.inl (by omega)), Char.ofNat_toNat]
  by_cases h7 : c.toNat ≤ 0x7E
  · have hesc : escChar c = [c] := by
      unfold escChar
      rw [if_neg h1, if_neg h2, if_neg h3, if_pos h7]
    rw [hesc, List.singleton_append, psbF_succ_cons]
    rw [if_neg h1, if_neg h2, if_neg h3]
  by_cases h8 : c.toNat < 0x10000
  · have hns := char_toNat_not_surrogate c
    have hesc2 : escChar c ++ l = '\\' :: 'u' :: hexCh (c.toNat / 4096 % 16)
        :: hexCh (c.toNat / 256 % 16) :: hexCh (c.toNat / 16 % 16)
        :: hexCh (c.toNat % 16) :: l := by
      unfold escChar
      rw [if_neg h1, if_neg h2, if_neg h3, if_neg h7, if_pos h8]
      rfl
    rw [hesc2, psbF_backslash]
    rw [psbEsc_u_single _ _ _ _ _ c.toNat l (hexCh_lt c.toNat (by omega))
      (by rcases hns with h | h
          · exact Or.inl (by omega)
          · exact Or.inr ⟨by omega, by omega⟩), Char.ofNat_toNat]
  · have hlt := char_toNat_lt c
    have hesc2 : escChar c ++ l = '\\' :: 'u'
        :: hexCh ((0xD800 + (c.toNat - 0x10000) / 0x400) / 4096 % 16)
        :: hexCh ((0xD800 + (c.toNat - 0x10000) / 0x400) / 256 % 16)
        :: hexCh ((0xD800 + (c.toNat - 0x10000) / 0x400) / 16 % 16)
        :: hexCh ((0xD800 + (c.toNat - 0x10000) / 0x400) % 16)
        :: '\\' :: 'u'
        :: hexCh ((0xDC00 + (c.toNat - 0x10000) % 0x400) / 4096 % 16)
        :: hexCh ((0xDC00 + (c.toNat - 0x10000) % 0x400) / 256 % 16)
        :: hexCh ((0xDC00 + (c.toNat - 0x10000) % 0x400) / 16 % 16)
        :: hexCh ((0xDC00 + (c.toNat - 0x10000) % 0x400) % 16) :: l := by
      unfold escChar
      rw [if_neg h1, if_neg h2, if_neg h3, if_neg h7, if_neg h8]
      rfl
    rw [hesc2]
    rw [psbF_backslash]
    rw [psbEsc_u_pair _ _ _ _ _ _ _ _ _ _ _ l
      (hexCh_lt _ (by omega)) (hexCh_lt _ (by omega))
      (⟨by omega, by omega⟩) (⟨by omega, by omega⟩)]
    rw [show 0x10000 + (0xD800 + (c.toNat - 0x10000) / 0x400 - 0xD800) * 0x400
      + (0xDC00 + (c.toNat - 0x10000) % 0x400 - 0xDC00) = c.toNat from by omega,
      Char.ofNat_toNat]

end CropAgent

namespace CropAgent

open JVal

theorem escChar_length_pos (c : Char) : 1 ≤ (escChar c).length := by
  unfold escChar
  repeat' split
  all_goals simp

theorem flatten_map_escChar_len (s : List Char) :
    s.length ≤ ((s.map escChar).flatten).length := by
  induction s with
  | nil => simp
  | cons c cs ih =>
    rw [List.map_cons, List.flatten_cons, List.length_append, List.length_cons]
    have := escChar_length_pos c
    omega

theorem psbF_body (s : List Char) : ∀ f l, s.length + 1 ≤ f →
    parseStringBodyF f ((s.map escChar).flatten ++ '"' :: l) = some (s, l) := by
  induction s with
  | nil =>
    intro f l hf
    obtain ⟨f2, rfl⟩ : ∃ f2, f = f2 + 1 := ⟨f - 1, by omega⟩
    rfl
  | cons c cs ih =>
    intro f l hf
    obtain ⟨f2, rfl⟩ : ∃ f2, f = f2 + 1 := ⟨f - 1, by omega⟩
    rw [List.map_cons, List.flatten_cons, List.append_assoc, psbF_esc,
      ih f2 l (by simp at hf ⊢; omega)]
    rfl

/-- Round-trip of one serialized JSON string body through the string parser:
the decoded characters are the original ones and the tail is untouched. -/
theorem parseStringBody_ser (s : List Char) (l : List Char) :
    parseStringBody ((s.map escChar).flatten ++ '"' :: l) = some (s, l) := by
  unfold parseStringBody
  apply psbF_body
  have := flatten_map_escChar_len s
  rw [List.length_append]
  simp only [List.length_cons]
  omega

theorem natDigitsAux_shift : ∀ n fuel acc, n < fuel →
    natDigitsAux fuel n acc = natDigits n ++ acc := by
  intro n
  induction n using Nat.strong_induction_on with
  | _ n ih =>
    intro fuel acc h
    obtain ⟨f, rfl⟩ : ∃ f, fuel = f + 1 := ⟨fuel - 1, by omega⟩
    by_cases h10 : n < 10
    · rw [natDigitsAux, if_pos h10, natDigits, natDigitsAux, if_pos h10]
      rfl
    · have hd : n / 10 < n := Nat.div_lt_self (by omega) (by omega)
      rw [natDigitsAux, if_neg h10, ih (n / 10) hd f _ (by omega)]
      have hs : natDigits n = natDigits (n / 10) ++ [Char.ofNat (48 + n % 10)] := by
        have h1 : natDigits n = natDigitsAux n (n / 10) [Char.ofNat (48 + n % 10)] := by
          unfold natDigits
          rw [natDigitsAux, if_neg h10]
        rw [h1, ih (n / 10) hd n _ (by omega)]
      rw [hs, List.append_assoc]
      rfl

theorem natDigits_split (n : Nat) (h : ¬n < 10) :
    natDigits n = natDigits (n / 10) ++ [Char.ofNat (48 + n % 10)] := by
  have h1 : natDigits n = natDigitsAux n (n / 10) [Char.ofNat (48 + n % 10)] := by
    unfold natDigits
    rw [natDigitsAux, if_neg h]
  rw [h1]
  exact natDigitsAux_shift (n / 10) n _ (by
    have := Nat.div_lt_self (show 0 < n by omega) (show 1 < 10 by omega)
    omega)

theorem natDigits_single (n : Nat) (h : n < 10) :
    natDigits n = [Char.ofNat (48 + n)] := by
  unfold natDigits
  rw [natDigitsAux, if_pos h]

theorem digit_char_isDigit (d : Nat) (h : d < 10) :
    isDigitCh (Char.ofNat (48 + d)) = true := by
  interval_cases d <;> decide

theorem digit_char_toNat (d : Nat) (h : d < 10) :
    (Char.ofNat (48 + d)).toNat = 48 + d := by
  interval_cases d <;> decide

theorem natDigits_all_digits (n : Nat) : ∀ c ∈ natDigits n, isDigitCh c = true := by
  induction n using Nat.strong_induction_on with
  | _ n ih =>
    by_cases h : n < 10
    · rw [natDigits_single n h]
      intro c hc
      rw [List.mem_singleton] at hc
      subst hc
      exact digit_char_isDigit n h
    · rw [natDigits_split n h]
      intro c hc
      rw [List.mem_append] at hc
      rcases hc with hc | hc
      · exact ih (n / 10) (Nat.div_lt_self (by omega) (by omega)) c hc
      · rw [List.mem_singleton] at hc
        subst hc
        exact digit_char_isDigit (n % 10) (by omega)

theorem natDigits_ne_nil (n : Nat) : natDigits n ≠ [] := by
  by_cases h : n < 10
  · rw [natDigits_single n h]
    simp
  · rw [natDigits_split n h]
    simp

theorem digitsToNat_append (xs : List Char) (c : Char) :
    digitsToNat (xs ++ [c]) = digitsToNat xs * 10 + (c.toNat - 48) := by
  unfold digitsToNat
  rw [List.foldl_append]
  rfl

theorem digitsToNat_natDigits (n : Nat) : digitsToNat (natDigits n) = n := by
  induction n using Nat.strong_induction_on with
  | _ n ih =>
    by_cases h : n < 10
    · rw [natDigits_single n h]
      unfold digitsToNat
      simp [digit_char_toNat n h]
    · rw [natDigits_split n h, digitsToNat_append,
        ih (n / 10) (Nat.div_lt_self (by omega) (by omega)),
        digit_char_toNat (n % 10) (by omega)]
      omega

theorem natDigits_head_nonzero (n : Nat) (hn : 0 < n) :
    ∃ c m, natDigits n = c :: m ∧ isDigitCh c = true ∧ c ≠ '0' := by
  induction n using Nat.strong_induction_on with
  | _ n ih =>
    by_cases h : n < 10
    · refine ⟨Char.ofNat (48 + n), [], natDigits_single n h, digit_char_isDigit n h, ?_⟩
      interval_cases n <;> decide
    · obtain ⟨c, m, hcm, hdig, hne⟩ := ih (n / 10) (Nat.div_lt_self (by omega) (by omega))
        (by omega)
      exact ⟨c, m ++ [Char.ofNat (48 + n % 10)], by rw [natDigits_split n h, hcm]; rfl,
        hdig, hne⟩

end CropAgent

namespace CropAgent

open JVal

theorem parseNatPart_cons (c : Char) (rest : List Char) :
    parseNatPart (c :: rest)
      = (if c = '0' then
          match rest with
          | r :: _ => if r = '.' ∨ r = 'e' ∨ r = 'E' then none else some (0, rest)
          | [] => some (0, rest)
        else if isDigitCh c then
          match (c :: rest).dropWhile isDigitCh with
          | r :: _ => if r = '.' ∨ r = 'e' ∨ r = 'E' then none
              else some (digitsToNat ((c :: rest).takeWhile isDigitCh),
                (c :: rest).dropWhile isDigitCh)
          | [] => some (digitsToNat ((c :: rest).takeWhile isDigitCh),
              (c :: rest).dropWhile isDigitCh)
        else none) := rfl

theorem parseNatPart_natDigits (n : Nat) (l : List Char)
    (hl : ∀ c m, l = c :: m → isDigitCh c = false ∧ c ≠ '.' ∧ c ≠ 'e' ∧ c ≠ 'E') :
    parseNatPart (natDigits n ++ l) = some (n, l) := by
  by_cases hz : n = 0
  · subst hz
    rw [show natDigits 0 ++ l = '0' :: l from rfl]
    cases l with
    | nil => rfl
    | cons c m =>
      obtain ⟨hd, he1, he2, he3⟩ := hl c m rfl
      show (if c = '.' ∨ c = 'e' ∨ c = 'E' then none else some (0, c :: m)) = some (0, c :: m)
      rw [if_neg (by simp [he1, he2, he3])]
  · obtain ⟨c, m, hcm, hdig, hne⟩ := natDigits_head_nonzero n (by omega)
    have hall : ∀ x ∈ natDigits n, isDigitCh x = true := natDigits_all_digits n
    have hc0 : c ≠ '0' := hne
    have hsplit : natDigits n ++ l = c :: (m ++ l) := by rw [hcm]; rfl
    have htake : (c :: (m ++ l)).takeWhile isDigitCh = natDigits n := by
      rw [← hsplit, List.takeWhile_append_of_pos hall]
      cases l with
      | nil => simp
      | cons x xs =>
        obtain ⟨hd, _, _, _⟩ := hl x xs rfl
        simp [List.takeWhile, hd]
    have hdrop : (c :: (m ++ l)).dropWhile isDigitCh = l := by
      rw [← hsplit, List.dropWhile_append_of_pos hall]
      cases l with
      | nil => simp
      | cons x xs =>
        obtain ⟨hd, _, _, _⟩ := hl x xs rfl
        simp [List.dropWhile, hd]
    rw [hsplit, parseNatPart_cons, if_neg hc0, if_pos hdig, htake, hdrop,
      digitsToNat_natDigits]
    cases l with
    | nil => rfl
    | cons x xs =>
      obtain ⟨hd, he1, he2, he3⟩ := hl x xs rfl
      simp only []
      rw [if_neg (by simp [he1, he2, he3])]

theorem parseNumber_cons (c : Char) (rest : List Char) :
    parseNumber (c :: rest)
      = (if c = '-' then
          match parseNatPart rest with
          | some (n, r) => some (-(n : Int), r)
          | none => none
        else
          match parseNatPart (c :: rest) with
          | some (n, r) => some ((n : Int), r)
          | none => none) := rfl

/-- Round-trip of a serialized integer through the number parser, provided
the tail does not continue the literal (no digit and no float marker). -/
theorem parseNumber_serInt (n : Int) (l : List Char)
    (hl : ∀ c m, l = c :: m → isDigitCh c = false ∧ c ≠ '.' ∧ c ≠ 'e' ∧ c ≠ 'E') :
    parseNumber (serInt n ++ l) = some (n, l) := by
  by_cases hneg : n < 0
  · have hser : serInt n ++ l = '-' :: (natDigits n.natAbs ++ l) := by
      unfold serInt
      rw [if_pos hneg]
      rfl
    rw [hser, parseNumber_cons, if_pos rfl, parseNatPart_natDigits n.natAbs l hl]
    simp only []
    congr 1
    rw [Int.ofNat_natAbs_of_nonpos (show n ≤ 0 by omega), neg_neg]
  · have hser : serInt n ++ l = natDigits n.toNat ++ l := by
      unfold serInt
      rw [if_neg hneg]
    obtain ⟨c, mm, hnd⟩ : ∃ c mm, natDigits n.toNat = c :: mm := by
      cases hnd2 : natDigits n.toNat with
      | nil => exact absurd hnd2 (natDigits_ne_nil _)
      | cons c mm => exact ⟨c, mm, rfl⟩
    have hcm : natDigits n.toNat ++ l = c :: (mm ++ l) := by
      rw [hnd]
      rfl
    have hdigc : isDigitCh c = true :=
      natDigits_all_digits n.toNat c (by rw [hnd]; simp)
    have hcminus : c ≠ '-' := by
      intro he
      rw [he] at hdigc
      exact absurd hdigc (by decide)
    rw [hser, hcm, parseNumber_cons, if_neg hcminus, ← hcm,
      parseNatPart_natDigits n.toNat l hl]
    simp only []
    rw [Int.toNat_of_nonneg (show (0 : Int) ≤ n by omega)]

end CropAgent

/-! ## Serialization round-trip: claim C8 -/

namespace CropAgent

open JVal

theorem jweight_pos (v : JVal) : 1 ≤ jweight v := by
  cases v <;> simp [jweight, jweightElems, jweightMembers]

theorem numTailOk_nil : numTailOk [] := fun _ _ h => List.noConfusion h

theorem numTailOk_head (c : Char) (x : List Char)
    (hc : isDigitCh c = false ∧ c ≠ '.' ∧ c ≠ 'e' ∧ c ≠ 'E') :
    numTailOk (c :: x) := by
  intro d m h
  rw [← (List.cons.inj h).1]
  exact hc

theorem isDigitCh_props (c : Char) (h : isDigitCh c = true) :
    isJsonWs c = false ∧ c ≠ '{' ∧ c ≠ '[' ∧ c ≠ '"' ∧ c ≠ 't' ∧ c ≠ 'f' ∧
      c ≠ 'n' ∧ c ≠ ']' ∧ c ≠ '}' ∧ c ≠ ',' := by
  have hne : ∀ d : Char, isDigitCh d = false → c ≠ d := by
    intro d hd he
    rw [he, hd] at h
    exact Bool.noConfusion h
  have h1 := hne ' ' (by decide)
  have h2 := hne '\t' (by decide)
  have h3 := hne '\n' (by decide)
  have h4 := hne '\r' (by decide)
  exact ⟨by simp [isJsonWs, h1, h2, h3, h4], hne '{' (by decide), hne '[' (by decide),
    hne '"' (by decide), hne 't' (by decide), hne 'f' (by decide), hne 'n' (by decide),
    hne ']' (by decide), hne '}' (by decide), hne ',' (by decide)⟩

theorem serInt_head (n : Int) :
    ∃ c t, serInt n = c :: t ∧ (c = '-' ∨ isDigitCh c = true) := by
  unfold serInt
  by_cases h : n < 0
  · rw [if_pos h]
    exact ⟨'-', _, rfl, Or.inl rfl⟩
  · rw [if_neg h]
    obtain ⟨c, t, hct⟩ : ∃ c t, natDigits n.toNat = c :: t := by
      cases h2 : natDigits n.toNat with
      | nil => exact absurd h2 (natDigits_ne_nil _)
      | cons c t => exact ⟨c, t, rfl⟩
    exact ⟨c, t, hct, Or.inr (natDigits_all_digits _ c (by rw [hct]; simp))⟩

theorem jser_head (v : JVal) :
    ∃ c t, jser v = c :: t ∧ isJsonWs c = false ∧ c ≠ ']' ∧ c ≠ '}' := by
  cases v with
  | jnull => exact ⟨'n', _, rfl, by decide, by decide, by decide⟩
  | jbool b =>
    cases b
    · exact ⟨'f', _, rfl, by decide, by decide, by decide⟩
    · exact ⟨'t', _, rfl, by decide, by decide, by decide⟩
  | jnum n =>
    obtain ⟨c, t, hct, hc⟩ := serInt_head n
    rcases hc with rfl | hd
    · exact ⟨'-', t, hct, by decide, by decide, by decide⟩
    · obtain ⟨hws, _, _, _, _, _, _, h7, h8, _⟩ := isDigitCh_props c hd
      exact ⟨c, t, hct, hws, h7, h8⟩
  | jstr s => exact ⟨'"', _, rfl, by decide, by decide, by decide⟩
  | jarr es => exact ⟨'[', _, rfl, by decide, by decide, by decide⟩
  | jobj m => exact ⟨'{', _, rfl, by decide, by decide, by decide⟩

theorem dropWhile_ws_pre (pre l : List Char) (h : ∀ c ∈ pre, isJsonWs c = true) :
    (pre ++ l).dropWhile isJsonWs = l.dropWhile isJsonWs := by
  induction pre with
  | nil => rfl
  | cons c p ih =>
    rw [List.cons_append, List.dropWhile_cons_of_pos (h c (by simp)),
      ih (fun d hd => h d (by simp [hd]))]

theorem pv_succ (f : Nat) (cs : List Char) :
    pv (f + 1) cs
      = (match cs.dropWhile isJsonWs with
        | [] => none
        | c :: rest =>
          if c = '{' then
            match rest.dropWhile isJsonWs with
            | '}' :: r3 => some (jobj [], r3)
            | _ => pmembers f (rest.dropWhile isJsonWs) []
          else if c = '[' then
            match rest.dropWhile isJsonWs with
            | ']' :: r3 => some (jarr [], r3)
            | _ => pelems f (rest.dropWhile isJsonWs) []
          else if c = '"' then
            match parseStringBody rest with
            | some (s, r) => some (jstr (String.mk s), r)
            | none => none
          else if c = 't' then
            match rest with
            | 'r' :: 'u' :: 'e' :: r => some (jbool true, r)
            | _ => none
          else if c = 'f' then
            match rest with
            | 'a' :: 'l' :: 's' :: 'e' :: r => some (jbool false, r)
            | _ => none
          else if c = 'n' then
            match rest with
            | 'u' :: 'l' :: 'l' :: r => some (jnull, r)
            | _ => none
          else
            match parseNumber (c :: rest) with
            | some (n, r) => some (jnum n, r)
            | none => none) := rfl

theorem pelems_succ (f : Nat) (cs : List Char) (acc : List JVal) :
    pelems (f + 1) cs acc
      = (match pv f cs with
        | none => none
        | some (v, r1) =>
          match r1.dropWhile isJsonWs with
          | [] => none
          | c :: r2 =>
            if c = ',' then pelems f r2 (v :: acc)
            else if c = ']' then some (jarr (v :: acc).reverse, r2)
            else none) := rfl

theorem pmembers_succ (f : Nat) (cs : List Char) (acc : PyDict) :
    pmembers (f + 1) cs acc
      = (match cs with
        | [] => none
        | c :: r1 =>
          if c = '"' then
            match parseStringBody r1 with
            | none => none
            | some (k, r2) =>
              match r2.dropWhile isJsonWs with
              | [] => none
              | c2 :: r3 =>
                if c2 = ':' then
                  match pv f r3 with
                  | none => none
                  | some (v, r4) =>
                    match r4.dropWhile isJsonWs with
                    | [] => none
                    | c3 :: r5 =>
                      if c3 = ',' then
                        pmembers f (r5.dropWhile isJsonWs) (dictSet acc (String.mk k) v)
                      else if c3 = '}' then
                        some (jobj (dictSet acc (String.mk k) v), r5)
                      else none
                else none
          else none) := rfl

theorem pv_pre (f : Nat) (pre cs : List Char) (h : ∀ c ∈ pre, isJsonWs c = true) :
    pv (f + 1) (pre ++ cs) = pv (f + 1) cs := by
  rw [pv_succ f (pre ++ cs), pv_succ f cs, dropWhile_ws_pre pre cs h]

theorem pv_str (f : Nat) (R l : List Char) (s : List Char)
    (h : parseStringBody R = some (s, l)) :
    pv (f + 1) ('"' :: R) = some (jstr (String.mk s), l) := by
  have h0 : pv (f + 1) ('"' :: R)
      = (match parseStringBody R with
        | some (s2, r) => some (jstr (String.mk s2), r)
        | none => none) := rfl
  rw [h0, h]

theorem pv_num (f : Nat) (n : Int) (l : List Char) (hl : numTailOk l) :
    pv (f + 1) (serInt n ++ l) = some (jnum n, l) := by
  obtain ⟨c, t, hct, hc⟩ := serInt_head n
  have hprops : isJsonWs c = false ∧ c ≠ '{' ∧ c ≠ '[' ∧ c ≠ '"' ∧ c ≠ 't' ∧
      c ≠ 'f' ∧ c ≠ 'n' := by
    rcases hc with rfl | hd
    · exact ⟨by decide, by decide, by decide, by decide, by decide, by decide, by decide⟩
    · obtain ⟨hws, h1, h2, h3, h4, h5, h6, _, _, _⟩ := isDigitCh_props c hd
      exact ⟨hws, h1, h2, h3, h4, h5, h6⟩
  obtain ⟨hws, h1, h2, h3, h4, h5, h6⟩ := hprops
  rw [hct, show (c :: t) ++ l = c :: (t ++ l) from rfl, pv_succ,
    List.dropWhile_cons_of_neg (by simp [hws])]
  simp only []
  rw [if_neg h1, if_neg h2, if_neg h3, if_neg h4, if_neg h5, if_neg h6,
    show c :: (t ++ l) = serInt n ++ l from by rw [hct, List.cons_append],
    parseNumber_serInt n l hl]

theorem pv_arr_step (f : Nat) (c : Char) (t : List Char)
    (hws : isJsonWs c = false) (hrb : c ≠ ']') :
    pv (f + 1) ('[' :: c :: t) = pelems f (c :: t) [] := by
  have h0 : pv (f + 1) ('[' :: c :: t)
      = (match (c :: t).dropWhile isJsonWs with
        | ']' :: r3 => some (jarr [], r3)
        | _ => pelems f ((c :: t).dropWhile isJsonWs) []) := rfl
  rw [h0, List.dropWhile_cons_of_neg (by simp [hws])]
  split
  · next r3 heq => exact absurd (List.cons.inj heq).1 hrb
  · rfl

theorem pv_obj_step (f : Nat) (c : Char) (t : List Char)
    (hws : isJsonWs c = false) (hrb : c ≠ '}') :
    pv (f + 1) ('{' :: c :: t) = pmembers f (c :: t) [] := by
  have h0 : pv (f + 1) ('{' :: c :: t)
      = (match (c :: t).dropWhile isJsonWs with
        | '}' :: r3 => some (jobj [], r3)
        | _ => pmembers f ((c :: t).dropWhile isJsonWs) []) := rfl
  rw [h0, List.dropWhile_cons_of_neg (by simp [hws])]
  split
  · next r3 heq => exact absurd (List.cons.inj heq).1 hrb
  · rfl

theorem jserMembers_cons_eq (k : String) (v : JVal) (rest : PyDict) :
    ∃ Y, jserMembers ((k, v) :: rest) = '"' :: Y := by
  cases rest with
  | nil =>
    refine ⟨(k.data.map escChar).flatten ++ '"' :: ':' :: ' ' :: jser v, ?_⟩
    rw [show jserMembers [(k, v)] = serStr k ++ ':' :: ' ' :: jser v from rfl,
      show serStr k = '"' :: ((k.data.map escChar).flatten ++ ['"']) from rfl]
    simp
  | cons m rs =>
    refine ⟨(k.data.map escChar).flatten
      ++ '"' :: ':' :: ' ' :: (jser v ++ ',' :: ' ' :: jserMembers (m :: rs)), ?_⟩
    rw [show jserMembers ((k, v) :: m :: rs)
        = serStr k ++ ':' :: ' ' :: jser v ++ ',' :: ' ' :: jserMembers (m :: rs) from rfl,
      show serStr k = '"' :: ((k.data.map escChar).flatten ++ ['"']) from rfl]
    simp


theorem WFbList_mem (L : List JVal) : WFbList L = true ↔ ∀ v ∈ L, WFb v = true := by
  induction L with
  | nil => simp [WFbList]
  | cons v rest ih =>
    rw [show WFbList (v :: rest) = (WFb v && WFbList rest) from rfl]
    simp [Bool.and_eq_true, ih]

theorem nodup_dictKeys_dictSet (d : PyDict) (k : String) (v : JVal)
    (h : (dictKeys d).Nodup) : (dictKeys (dictSet d k v)).Nodup := by
  by_cases hm : k ∈ dictKeys d
  · rw [dictKeys_dictSet d k v hm]
    exact h
  · rw [dictSet_of_not_mem d k v hm,
      show dictKeys (d ++ [(k, v)]) = dictKeys d ++ [k] from by simp [dictKeys]]
    exact List.Nodup.append h (List.nodup_singleton k)
      (fun a ha hb => hm ((List.mem_singleton.mp hb) ▸ ha))

theorem WFbMembers_dictSet (d : PyDict) (k : String) (v : JVal)
    (hd : WFbMembers d = true) (hv : WFb v = true) :
    WFbMembers (dictSet d k v) = true := by
  induction d with
  | nil =>
    rw [show dictSet [] k v = [(k, v)] from rfl,
      show WFbMembers [(k, v)] = (WFb v && WFbMembers []) from rfl]
    simp [hv, WFbMembers]
  | cons p rest ih =>
    obtain ⟨k2, v2⟩ := p
    rw [show WFbMembers ((k2, v2) :: rest) = (WFb v2 && WFbMembers rest) from rfl,
      Bool.and_eq_true] at hd
    rw [show dictSet ((k2, v2) :: rest) k v
        = (if k2 = k then (k, v) :: rest else (k2, v2) :: dictSet rest k v) from rfl]
    split
    · rw [show WFbMembers ((k, v) :: rest) = (WFb v && WFbMembers rest) from rfl]
      simp [hv, hd.2]
    · rw [show WFbMembers ((k2, v2) :: dictSet rest k v)
          = (WFb v2 && WFbMembers (dictSet rest k v)) from rfl]
      simp [hd.1, ih hd.2]

theorem jweight_bound (n : Nat) :
    (∀ v, jweight v ≤ n → jweight v ≤ 2 * (jser v).length) ∧
    (∀ es, jweightElems es ≤ n → jweightElems es ≤ 2 * (jserElems es).length + 1) ∧
    (∀ m, jweightMembers m ≤ n → jweightMembers m ≤ 2 * (jserMembers m).length + 1) := by
  induction n with
  | zero =>
    refine ⟨fun v hv => absurd hv (by have := jweight_pos v; omega), fun es hes => ?_,
      fun m hm => ?_⟩
    · cases es with
      | nil => simp [jweightElems]
      | cons v rest =>
        rw [show jweightElems (v :: rest) = 1 + jweight v + jweightElems rest from rfl] at hes
        omega
    · cases m with
      | nil => simp [jweightMembers]
      | cons p rest =>
        obtain ⟨k, v⟩ := p
        rw [show jweightMembers ((k, v) :: rest)
            = 1 + jweight v + jweightMembers rest from rfl] at hm
        omega
  | succ n ih =>
    refine ⟨fun v hv => ?_, fun es hes => ?_, fun m hm => ?_⟩
    · cases v with
      | jnull => decide
      | jbool b => cases b <;> decide
      | jnum k =>
        obtain ⟨c, t, hct, _⟩ := serInt_head k
        rw [show jweight (jnum k) = 1 from rfl, show jser (jnum k) = serInt k from rfl, hct]
        simp
        omega
      | jstr s =>
        rw [show jweight (jstr s) = 1 from rfl,
          show jser (jstr s) = '\"' :: ((s.data.map escChar).flatten ++ ['\"']) from rfl]
        simp
        omega
      | jarr es =>
        rw [show jweight (jarr es) = 1 + jweightElems es from rfl] at hv ⊢
        have h2 := ih.2.1 es (by omega)
        rw [show jser (jarr es) = '[' :: (jserElems es ++ [']']) from rfl]
        simp [List.length_append] at h2 ⊢
        omega
      | jobj m =>
        rw [show jweight (jobj m) = 1 + jweightMembers m from rfl] at hv ⊢
        have h2 := ih.2.2 m (by omega)
        rw [show jser (jobj m) = '{' :: (jserMembers m ++ ['}']) from rfl]
        simp [List.length_append] at h2 ⊢
        omega
    · cases es with
      | nil => simp [jweightElems]
      | cons v rest =>
        cases rest with
        | nil =>
          rw [show jweightElems [v] = 1 + jweight v + 0 from rfl] at hes ⊢
          have h1 := ih.1 v (by omega)
          rw [show jserElems [v] = jser v from rfl]
          omega
        | cons w rs =>
          rw [show jweightElems (v :: w :: rs)
              = 1 + jweight v + jweightElems (w :: rs) from rfl] at hes ⊢
          have h1 := ih.1 v (by omega)
          have h2 := ih.2.1 (w :: rs) (by omega)
          rw [show jserElems (v :: w :: rs)
              = jser v ++ ',' :: ' ' :: jserElems (w :: rs) from rfl]
          simp [List.length_append] at h2 ⊢
          omega
    · cases m with
      | nil => simp [jweightMembers]
      | cons p rest =>
        obtain ⟨k, v⟩ := p
        cases rest with
        | nil =>
          rw [show jweightMembers [(k, v)] = 1 + jweight v + 0 from rfl] at hm ⊢
          have h1 := ih.1 v (by omega)
          rw [show jserMembers [(k, v)] = serStr k ++ ':' :: ' ' :: jser v from rfl]
          simp [List.length_append]
          omega
        | cons q rs =>
          rw [show jweightMembers ((k, v) :: q :: rs)
              = 1 + jweight v + jweightMembers (q :: rs) from rfl] at hm ⊢
          have h1 := ih.1 v (by omega)
          have h2 := ih.2.2 (q :: rs) (by omega)
          rw [show jserMembers ((k, v) :: q :: rs)
              = serStr k ++ ':' :: ' ' :: jser v ++ ',' :: ' ' :: jserMembers (q :: rs) from rfl]
          simp [List.length_append] at h2 ⊢
          omega

theorem jweight_le_len (v : JVal) : jweight v ≤ 2 * (jser v).length :=
  (jweight_bound (jweight v)).1 v (le_refl _)

theorem WFb_jobj_eq (m : PyDict) :
    WFb (jobj m) = ((dictKeys m).Nodup && WFbMembers m) := rfl

theorem parse_WF (f : Nat) :
    (∀ cs v r, pv f cs = some (v, r) → WFb v = true) ∧
    (∀ cs acc v r, WFbList acc = true → pelems f cs acc = some (v, r) → WFb v = true) ∧
    (∀ cs acc v r, WFbMembers acc = true → (dictKeys acc).Nodup →
      pmembers f cs acc = some (v, r) → WFb v = true) := by
  induction f with
  | zero =>
    exact ⟨fun cs v r h => absurd h (by simp [pv]),
      fun cs acc v r _ h => absurd h (by simp [pelems]),
      fun cs acc v r _ _ h => absurd h (by simp [pmembers])⟩
  | succ f ih =>
    obtain ⟨ihA, ihB, ihC⟩ := ih
    refine ⟨fun cs v r h => ?_, fun cs acc v r hacc h => ?_,
      fun cs acc v r haccW haccN h => ?_⟩
    · rw [pv_succ] at h
      split at h
      · exact Option.noConfusion h
      · repeat' split at h
        any_goals exact Option.noConfusion h
        any_goals exact ihC _ _ _ _ (by rfl) (by simp [dictKeys]) h
        any_goals exact ihB _ _ _ _ (by rfl) h
        all_goals rw [← (Prod.mk.inj (Option.some.inj h)).1]
        all_goals rfl
    · rw [pelems_succ] at h
      split at h
      · exact Option.noConfusion h
      · next w r1 heq =>
        have hw : WFb w = true := ihA _ _ _ heq
        split at h
        · exact Option.noConfusion h
        · next c r2 =>
          split at h
          · exact ihB _ _ _ _
              (by rw [show WFbList (w :: acc) = (WFb w && WFbList acc) from rfl]
                  simp [hw, hacc]) h
          · split at h
            · rw [← (Prod.mk.inj (Option.some.inj h)).1,
                show WFb (jarr (w :: acc).reverse) = WFbList (w :: acc).reverse from rfl,
                WFbList_mem]
              intro x hx
              rw [List.mem_reverse] at hx
              rcases List.mem_cons.mp hx with rfl | hxa
              · exact hw
              · exact (WFbList_mem acc).mp hacc x hxa
            · exact Option.noConfusion h
    · rw [pmembers_succ] at h
      split at h
      · exact Option.noConfusion h
      · next c r1 =>
        split at h
        · split at h
          · exact Option.noConfusion h
          · next k r2 heqs =>
            split at h
            · exact Option.noConfusion h
            · next c2 r3 heqd =>
              split at h
              · split at h
                · exact Option.noConfusion h
                · next w r4 heq =>
                  have hw : WFb w = true := ihA _ _ _ heq
                  split at h
                  · exact Option.noConfusion h
                  · next c3 r5 heqd2 =>
                    split at h
                    · exact ihC _ _ _ _ (WFbMembers_dictSet _ _ _ haccW hw)
                        (nodup_dictKeys_dictSet _ _ _ haccN) h
                    · split at h
                      · rw [← (Prod.mk.inj (Option.some.inj h)).1, WFb_jobj_eq]
                        simp only [Bool.and_eq_true, decide_eq_true_eq]
                        exact ⟨nodup_dictKeys_dictSet _ _ _ haccN,
                          WFbMembers_dictSet _ _ _ haccW hw⟩
                      · exact Option.noConfusion h
              · exact Option.noConfusion h
        · exact Option.noConfusion h

theorem jsonLoadsChars_WF (cs : List Char) (v : JVal)
    (h : jsonLoadsChars cs = some v) : WFb v = true := by
  unfold jsonLoadsChars at h
  split at h
  · next w rest heq =>
    split at h
    · exact (Option.some.inj h) ▸ (parse_WF _).1 _ _ _ heq
    · exact Option.noConfusion h
  · exact Option.noConfusion h

theorem parse_json_WF (raw : String) (v : JVal)
    (h : Utils.parse_json raw = some v) : WFb v = true := by
  unfold Utils.parse_json at h
  split at h
  · exact jsonLoadsChars_WF _ _ h
  · split at h
    · exact jsonLoadsChars_WF _ _ h
    · exact Option.noConfusion h


theorem ser_roundtrip (f : Nat) :
    (∀ pre v l, (∀ c ∈ pre, isJsonWs c = true) → WFb v = true → numTailOk l →
      jweight v ≤ f → pv f (pre ++ (jser v ++ l)) = some (v, l)) ∧
    (∀ pre es acc l, (∀ c ∈ pre, isJsonWs c = true) → es ≠ [] → WFbList es = true →
      jweightElems es ≤ f →
      pelems f (pre ++ (jserElems es ++ ']' :: l)) acc
        = some (jarr (acc.reverse ++ es), l)) ∧
    (∀ m acc l, m ≠ [] → WFbMembers m = true → (dictKeys (acc ++ m)).Nodup →
      jweightMembers m ≤ f →
      pmembers f (jserMembers m ++ '}' :: l) acc = some (jobj (acc ++ m), l)) := by
  induction f with
  | zero =>
    refine ⟨fun pre v l _ _ _ hw => absurd hw (by have := jweight_pos v; omega),
      fun pre es acc l _ hne _ hw => ?_, fun m acc l hne _ _ hw => ?_⟩
    · cases es with
      | nil => exact absurd rfl hne
      | cons v rest =>
        rw [show jweightElems (v :: rest) = 1 + jweight v + jweightElems rest from rfl] at hw
        omega
    · cases m with
      | nil => exact absurd rfl hne
      | cons p rest =>
        obtain ⟨k, v⟩ := p
        rw [show jweightMembers ((k, v) :: rest)
            = 1 + jweight v + jweightMembers rest from rfl] at hw
        omega
  | succ f ih =>
    obtain ⟨ihA, ihB, ihC⟩ := ih
    refine ⟨fun pre v l hpre hWF hnum hw => ?_, fun pre es acc l hpre hne hWF hw => ?_,
      fun m acc l hne hWF hnd hw => ?_⟩
    · rw [pv_pre f pre _ hpre]
      cases v with
      | jnull => exact rfl
      | jbool b => cases b <;> exact rfl
      | jnum k => exact pv_num f k l hnum
      | jstr s =>
        rw [show jser (jstr s) ++ l
            = '"' :: ((s.data.map escChar).flatten ++ '"' :: l) from by
          rw [show jser (jstr s) = '"' :: ((s.data.map escChar).flatten ++ ['"']) from rfl]
          simp]
        rw [pv_str f _ l s.data (parseStringBody_ser s.data l)]
      | jarr es =>
        cases es with
        | nil => exact rfl
        | cons w rest =>
          obtain ⟨c, t, hct, hws, hrb, _⟩ := jser_head w
          rw [show WFb (jarr (w :: rest)) = WFbList (w :: rest) from rfl] at hWF
          rw [show jweight (jarr (w :: rest)) = 1 + jweightElems (w :: rest) from rfl] at hw
          rw [show jser (jarr (w :: rest)) ++ l
              = '[' :: (jserElems (w :: rest) ++ ']' :: l) from by
            rw [show jser (jarr (w :: rest))
                = '[' :: (jserElems (w :: rest) ++ [']']) from rfl]
            simp]
          have hhead : ∃ T, jserElems (w :: rest) ++ ']' :: l = c :: T := by
            cases rest with
            | nil =>
              exact ⟨t ++ ']' :: l, by
                rw [show jserElems [w] = jser w from rfl, hct]; simp⟩
            | cons u us =>
              exact ⟨t ++ (',' :: ' ' :: jserElems (u :: us) ++ ']' :: l), by
                rw [show jserElems (w :: u :: us)
                    = jser w ++ ',' :: ' ' :: jserElems (u :: us) from rfl, hct]
                simp⟩
          obtain ⟨T, hT⟩ := hhead
          rw [hT, pv_arr_step f c T hws hrb, ← hT]
          have hrec := ihB [] (w :: rest) [] l (by simp) (by simp) hWF (by omega)
          simp only [List.nil_append, List.reverse_nil] at hrec
          exact hrec
      | jobj m =>
        cases m with
        | nil => exact rfl
        | cons p rest =>
          obtain ⟨k2, v2⟩ := p
          rw [WFb_jobj_eq, Bool.and_eq_true, decide_eq_true_eq] at hWF
          rw [show jweight (jobj ((k2, v2) :: rest))
              = 1 + jweightMembers ((k2, v2) :: rest) from rfl] at hw
          rw [show jser (jobj ((k2, v2) :: rest)) ++ l
              = '{' :: (jserMembers ((k2, v2) :: rest) ++ '}' :: l) from by
            rw [show jser (jobj ((k2, v2) :: rest))
                = '{' :: (jserMembers ((k2, v2) :: rest) ++ ['}']) from rfl]
            simp]
          obtain ⟨Y, hY⟩ := jserMembers_cons_eq k2 v2 rest
          have hT : jserMembers ((k2, v2) :: rest) ++ '}' :: l = '"' :: (Y ++ '}' :: l) := by
            rw [hY, List.cons_append]
          rw [hT, pv_obj_step f '"' (Y ++ '}' :: l) (by decide) (by decide), ← hT]
          have hrec := ihC ((k2, v2) :: rest) [] l (by simp) hWF.2
            (by simp only [List.nil_append]; exact hWF.1) (by omega)
          simp only [List.nil_append] at hrec
          exact hrec
    · cases es with
      | nil => exact absurd rfl hne
      | cons v rest =>
        rw [show WFbList (v :: rest) = (WFb v && WFbList rest) from rfl,
          Bool.and_eq_true] at hWF
        rw [show jweightElems (v :: rest) = 1 + jweight v + jweightElems rest from rfl] at hw
        cases rest with
        | nil =>
          rw [pelems_succ, show jserElems [v] = jser v from rfl,
            ihA pre v (']' :: l) hpre hWF.1 (numTailOk_head ']' l (by decide)) (by omega)]
          simp only []
          rw [List.dropWhile_cons_of_neg (by decide)]
          simp only []
          rw [if_neg (by decide), if_pos (by trivial), List.reverse_cons]
        | cons w rs =>
          rw [pelems_succ,
            show jserElems (v :: w :: rs)
              = jser v ++ ',' :: ' ' :: jserElems (w :: rs) from rfl,
            show (jser v ++ ',' :: ' ' :: jserElems (w :: rs)) ++ ']' :: l
              = jser v ++ (',' :: ' ' :: (jserElems (w :: rs) ++ ']' :: l)) from by simp,
            ihA pre v (',' :: ' ' :: (jserElems (w :: rs) ++ ']' :: l)) hpre hWF.1
              (numTailOk_head ',' _ (by decide)) (by omega)]
          simp only []
          rw [List.dropWhile_cons_of_neg (by decide)]
          simp only []
          rw [if_pos (by trivial)]
          have hrec := ihB [' '] (w :: rs) (v :: acc) l (by decide) (by simp)
            hWF.2 (by omega)
          rw [show ([' '] : List Char) ++ (jserElems (w :: rs) ++ ']' :: l)
              = ' ' :: (jserElems (w :: rs) ++ ']' :: l) from rfl] at hrec
          rw [hrec, List.reverse_cons, List.append_assoc]
          rfl
    · cases m with
      | nil => exact absurd rfl hne
      | cons p rest =>
        obtain ⟨k, v⟩ := p
        rw [show WFbMembers ((k, v) :: rest) = (WFb v && WFbMembers rest) from rfl,
          Bool.and_eq_true] at hWF
        rw [show jweightMembers ((k, v) :: rest)
            = 1 + jweight v + jweightMembers rest from rfl] at hw
        have hkacc : k ∉ dictKeys acc := by
          intro hmem
          have hnd2 : (dictKeys acc ++ k :: dictKeys rest).Nodup := by
            rw [show dictKeys acc ++ k :: dictKeys rest
                = dictKeys (acc ++ (k, v) :: rest) from by simp [dictKeys]]
            exact hnd
          exact (List.nodup_append.mp hnd2).2.2 hmem (List.mem_cons_self k _)
        cases rest with
        | nil =>
          rw [pmembers_succ, show jserMembers [(k, v)] ++ '}' :: l
              = '"' :: ((k.data.map escChar).flatten
                ++ '"' :: (':' :: ' ' :: (jser v ++ '}' :: l))) from by
            rw [show jserMembers [(k, v)] = serStr k ++ ':' :: ' ' :: jser v from rfl,
              show serStr k = '"' :: ((k.data.map escChar).flatten ++ ['"']) from rfl]
            simp]
          simp only []
          rw [if_pos (by trivial), parseStringBody_ser k.data (':' :: ' ' :: (jser v ++ '}' :: l))]
          simp only []
          rw [List.dropWhile_cons_of_neg (by decide)]
          simp only []
          rw [if_pos (by trivial),
            show ' ' :: (jser v ++ '}' :: l) = [' '] ++ (jser v ++ '}' :: l) from rfl,
            ihA [' '] v ('}' :: l) (by decide) hWF.1
              (numTailOk_head '}' l (by decide)) (by omega)]
          simp only []
          rw [List.dropWhile_cons_of_neg (by decide)]
          simp only []
          rw [if_neg (by decide), if_pos (by trivial), show String.mk k.data = k from rfl,
            dictSet_of_not_mem acc k v hkacc]
        | cons q rs =>
          obtain ⟨k2, v2⟩ := q
          rw [pmembers_succ, show jserMembers ((k, v) :: (k2, v2) :: rs) ++ '}' :: l
              = '"' :: ((k.data.map escChar).flatten
                ++ '"' :: (':' :: ' ' :: (jser v
                  ++ ',' :: ' ' :: (jserMembers ((k2, v2) :: rs) ++ '}' :: l)))) from by
            rw [show jserMembers ((k, v) :: (k2, v2) :: rs)
                = serStr k ++ ':' :: ' ' :: jser v
                  ++ ',' :: ' ' :: jserMembers ((k2, v2) :: rs) from rfl,
              show serStr k = '"' :: ((k.data.map escChar).flatten ++ ['"']) from rfl]
            simp]
          simp only []
          rw [if_pos (by trivial), parseStringBody_ser k.data
            (':' :: ' ' :: (jser v ++ ',' :: ' ' :: (jserMembers ((k2, v2) :: rs) ++ '}' :: l)))]
          simp only []
          rw [List.dropWhile_cons_of_neg (by decide)]
          simp only []
          rw [if_pos (by trivial),
            show ' ' :: (jser v ++ ',' :: ' ' :: (jserMembers ((k2, v2) :: rs) ++ '}' :: l))
              = [' '] ++ (jser v ++ ',' :: ' ' :: (jserMembers ((k2, v2) :: rs) ++ '}' :: l))
              from rfl,
            ihA [' '] v (',' :: ' ' :: (jserMembers ((k2, v2) :: rs) ++ '}' :: l)) (by decide)
              hWF.1 (numTailOk_head ',' _ (by decide)) (by omega)]
          simp only []
          rw [List.dropWhile_cons_of_neg (by decide)]
          simp only []
          rw [if_pos (by trivial), List.dropWhile_cons_of_pos (by decide)]
          obtain ⟨Y, hY⟩ := jserMembers_cons_eq k2 v2 rs
          have hdw : (jserMembers ((k2, v2) :: rs) ++ '}' :: l).dropWhile isJsonWs
              = jserMembers ((k2, v2) :: rs) ++ '}' :: l := by
            rw [hY, List.cons_append, List.dropWhile_cons_of_neg (by decide)]
          rw [hdw, show String.mk k.data = k from rfl, dictSet_of_not_mem acc k v hkacc]
          have hrec := ihC ((k2, v2) :: rs) (acc ++ [(k, v)]) l (by simp) hWF.2
            (by rw [show (acc ++ [(k, v)]) ++ (k2, v2) :: rs
                  = acc ++ (k, v) :: (k2, v2) :: rs from by simp]
                exact hnd) (by omega)
          rw [hrec, show (acc ++ [(k, v)]) ++ (k2, v2) :: rs
              = acc ++ (k, v) :: (k2, v2) :: rs from by simp]


theorem jsonLoads_jser (v : JVal) (hWF : WFb v = true) :
    jsonLoadsChars (jser v) = some v := by
  unfold jsonLoadsChars
  have h := (ser_roundtrip (2 * (jser v).length + 4)).1 [] v [] (by simp) hWF
    numTailOk_nil (by have := jweight_le_len v; omega)
  simp only [List.nil_append, List.append_nil] at h
  rw [h]
  simp

/-- Claim C8, counterexample to the unconditional round-trip claim: the raw
response `{"k": "\u0060\u0060\u0060{}\u0060\u0060\u0060"}` (with the
backticks written as JSON escapes) extracts to an object whose string value
holds a literal backtick fence around a brace pair; `json.dumps` re-emits the
backticks verbatim, so re-extraction matches the markdown fence regex first
and returns the fenced empty object rather than the original one. -/
theorem extract_reserialize_cex :
    Utils.parse_json ("\x7b\"k\": \"\\u0060\\u0060\\u0060\x7b\x7d\\u0060\\u0060\\u0060\"\x7d")
        = some (jobj [("k", jstr "```\x7b\x7d```")]) ∧
    Utils.parse_json (jsonDumps (jobj [("k", jstr "```\x7b\x7d```")]))
        = some (jobj []) ∧
    jobj ([] : PyDict) ≠ jobj [("k", jstr "```\x7b\x7d```")] := by
  refine ⟨by rfl, by rfl, ?_⟩
  intro he
  exact List.noConfusion (jobj.inj he)

/-- Claim C8 as amended: if extraction of a raw response succeeds with object
`o` and the re-serialized text `json.dumps(o)` contains no markdown code-fence
match, then extracting the re-serialized text yields `o` again.  The dumps of
an extracted object is a brace-delimited text whose first `{` and last `}` are
its ends, and `json.loads` inverts `json.dumps` on objects with distinct keys
(which `json.loads` always produces). -/
theorem extract_reserialize_roundtrip (raw : String) (o : JVal)
    (h : Utils.parse_json raw = some o)
    (hf : fenceSearch (jsonDumps o).data = none) :
    Utils.parse_json (jsonDumps o) = some o := by
  have hWF : WFb o = true := parse_json_WF raw o h
  obtain ⟨d, rfl⟩ := parse_json_isObj raw o h
  unfold Utils.parse_json
  rw [hf]
  simp only []
  rw [show (jsonDumps (jobj d)).data = '{' :: (jserMembers d ++ ['}']) from rfl]
  rw [if_pos (by simp)]
  rw [List.dropWhile_cons_of_neg (by decide)]
  rw [show ('{' :: (jserMembers d ++ ['}'])).reverse
      = '}' :: ((jserMembers d).reverse ++ ['{']) from by simp]
  rw [List.dropWhile_cons_of_neg (by decide)]
  rw [show ('}' :: ((jserMembers d).reverse ++ ['{'])).reverse
      = '{' :: (jserMembers d ++ ['}']) from by simp]
  rw [show '{' :: (jserMembers d ++ ['}']) = jser (jobj d) from rfl]
  exact jsonLoads_jser _ hWF

/-- Witness for C8 amended, at a concrete raw response without fences. -/
theorem extract_reserialize_roundtrip_witness :
    Utils.parse_json ("\x7b\"a\": 1\x7d") = some (jobj [("a", jnum 1)]) ∧
    fenceSearch (jsonDumps (jobj [("a", jnum 1)])).data = none ∧
    Utils.parse_json (jsonDumps (jobj [("a", jnum 1)]))
      = some (jobj [("a", jnum 1)]) :=
  ⟨by rfl, by rfl, extract_reserialize_roundtrip ("\x7b\"a\": 1\x7d")
    (jobj [("a", jnum 1)]) (by rfl) (by rfl)⟩

end CropAgent
